import Mathlib

set_option maxRecDepth 40000

namespace GhprTools

/-!
Shallow embedding of `ghpr-tools` (crawler.py and writer.py).

The crawler pattern
`\b(?:close|closes|closed|fix|fixes|fixed|resolve|resolves|resolved)\s+(?:https://github\.com/{owner}/{repo}/issues/|{owner}/{repo}#|#)(\d+)\b`
is compiled with `re.IGNORECASE` and applied with `findall`, which scans
left to right and returns the capture group of each non-overlapping match.
The matcher below implements exactly this pattern over ASCII text, with
Python's leftmost-alternation and greedy-with-backtracking semantics.
Strings are processed as their character lists; a match consumes a suffix.
-/

/-- Python regex `\w` on ASCII input: letters, digits and underscore. -/
def isWordChar (c : Char) : Bool := c.isAlphanum || c == '_'

/-- Python regex `\s` on ASCII input. -/
def isSpaceChar (c : Char) : Bool :=
  c == ' ' || c == '\t' || c == '\n' || c == '\r' || c == '\x0b' || c == '\x0c'

/-- Whether the first character of the remaining input is a word character
(`false` at end of input). -/
def headWord : List Char → Bool
  | [] => false
  | c :: _ => isWordChar c

/-- Case-insensitive match of a literal at the head of the input; on success
returns the remaining input. `re.IGNORECASE` lowers both sides. -/
def litCI : List Char → List Char → Option (List Char)
  | [], s => some s
  | _ :: _, [] => none
  | c :: cs, d :: ds => if c.toLower == d.toLower then litCI cs ds else none

/-- Greedy `\s*` with backtracking: prefer consuming further whitespace,
fall back to the continuation at the current position. -/
def wsStar {A : Type} (cont : List Char → Option A) : List Char → Option A
  | [] => cont []
  | c :: cs =>
    if isSpaceChar c then (wsStar cont cs).orElse (fun _ => cont (c :: cs))
    else cont (c :: cs)

/-- `\s+`: at least one whitespace character, then greedy `\s*`. -/
def wsPlus {A : Type} (cont : List Char → Option A) : List Char → Option A
  | [] => none
  | c :: cs => if isSpaceChar c then wsStar cont cs else none

/-- Continuation of `(\d+)\b` after at least one digit has been consumed:
greedily consume further digits; when stopping, the trailing `\b` requires the
next character to be a non-word character (or end of input). `acc` folds the
digits of the capture group, as `int` does on the captured string. -/
def digitsRest (acc : Nat) : List Char → Option (Nat × List Char)
  | [] => some (acc, [])
  | c :: cs =>
    if c.isDigit then
      (digitsRest (acc * 10 + (c.toNat - '0'.toNat)) cs).orElse
        (fun _ => if isWordChar c then none else some (acc, c :: cs))
    else if isWordChar c then none
    else some (acc, c :: cs)

/-- `(\d+)\b`: one or more digits, greedy, followed by a word boundary. -/
def digitsPlus : List Char → Option (Nat × List Char)
  | [] => none
  | c :: cs => if c.isDigit then digitsRest (c.toNat - '0'.toNat) cs else none

/-- The compiled linked-issues pattern of `_make_linked_issues_regex`:
only the repository coordinates vary between compilations. -/
structure LinkedIssuesRegex where
  owner : String
  repo : String
deriving DecidableEq

/-- The three reference alternatives of the pattern, in pattern order: the
full issue URL, the `owner/repo#` short form, and the bare `#` form. The `\.`
escaping in the source makes `.` match literally; the literals here are
matched literally throughout, so the escaping is the identity. -/
def linkTargets (rgx : LinkedIssuesRegex) : List (List Char) :=
  [("https://github.com/" ++ rgx.owner ++ "/" ++ rgx.repo ++ "/issues/").data,
   (rgx.owner ++ "/" ++ rgx.repo ++ "#").data,
   ['#']]

/-- The closing keywords of the pattern, in pattern order. -/
def keywords : List (List Char) :=
  ["close", "closes", "closed", "fix", "fixes", "fixed",
   "resolve", "resolves", "resolved"].map String.data

/-- Alternation over the reference forms, each followed by `(\d+)\b`;
alternatives are tried in pattern order with backtracking. -/
def tryLinkTargets : List (List Char) → List Char → Option (Nat × List Char)
  | [], _ => none
  | t :: ts, rest =>
    (match litCI t rest with
     | some rest2 => digitsPlus rest2
     | none => none).orElse (fun _ => tryLinkTargets ts rest)

/-- After a keyword: `\s+`, then a reference form and the capture group. -/
def afterKeyword (rgx : LinkedIssuesRegex) (rest : List Char) :
    Option (Nat × List Char) :=
  wsPlus (fun rest2 => tryLinkTargets (linkTargets rgx) rest2) rest

/-- Alternation over the closing keywords, in pattern order, each followed by
the rest of the pattern; on failure of the continuation the next keyword is
tried (Python backtracking, so e.g. `fixes` is reached after `fix` fails). -/
def tryKeywords (rgx : LinkedIssuesRegex) :
    List (List Char) → List Char → Option (Nat × List Char)
  | [], _ => none
  | kw :: kws, rest =>
    (match litCI kw rest with
     | some rest2 => afterKeyword rgx rest2
     | none => none).orElse (fun _ => tryKeywords rgx kws rest)

/-- Attempt a match anchored at the current position. `prevWord` tells whether
the character just before this position is a word character, so the leading
`\b` holds iff `prevWord` and the head of the input disagree. -/
def matchHere (rgx : LinkedIssuesRegex) (prevWord : Bool) (rest : List Char) :
    Option (Nat × List Char) :=
  if prevWord != headWord rest then tryKeywords rgx keywords rest else none

theorem litCI_length {lit s r : List Char} (h : litCI lit s = some r) :
    r.length + lit.length = s.length := by
  induction lit generalizing s with
  | nil => simp [litCI] at h; simp [h]
  | cons c cs ih =>
    cases s with
    | nil => simp [litCI] at h
    | cons d ds =>
      simp only [litCI] at h
      split at h
      · have := ih h
        simp [List.length_cons]
        omega
      · exact absurd h (by simp)

theorem wsStar_length (cont : List Char → Option (Nat × List Char))
    (hc : ∀ s n r, cont s = some (n, r) → r.length ≤ s.length) :
    ∀ s n r, wsStar cont s = some (n, r) → r.length ≤ s.length := by
  intro s
  induction s with
  | nil => intro n r h; exact hc [] n r h
  | cons c cs ih =>
    intro n r h
    simp only [wsStar] at h
    split at h
    · rcases (Option.orElse_eq_some' _ _ _).mp h with h1 | ⟨_, h2⟩
      · have := ih n r h1
        simp only [List.length_cons]
        omega
      · exact hc _ n r h2
    · exact hc _ n r h

theorem wsPlus_length (cont : List Char → Option (Nat × List Char))
    (hc : ∀ s n r, cont s = some (n, r) → r.length ≤ s.length) :
    ∀ s n r, wsPlus cont s = some (n, r) → r.length ≤ s.length := by
  intro s n r h
  cases s with
  | nil => simp [wsPlus] at h
  | cons c cs =>
    simp only [wsPlus] at h
    split at h
    · have := wsStar_length cont hc cs n r h
      simp only [List.length_cons]
      omega
    · exact absurd h (by simp)

theorem digitsRest_length :
    ∀ {acc : Nat} {s : List Char} {n : Nat} {r : List Char},
      digitsRest acc s = some (n, r) → r.length ≤ s.length := by
  intro acc s
  induction s generalizing acc with
  | nil => intro n r h; simp [digitsRest] at h; simp [h]
  | cons c cs ih =>
    intro n r h
    simp only [digitsRest] at h
    split at h
    · rcases (Option.orElse_eq_some' _ _ _).mp h with h1 | ⟨_, h2⟩
      · have := ih h1
        simp only [List.length_cons]
        omega
      · split at h2
        · exact absurd h2 (by simp)
        · simp only [Option.some.injEq, Prod.mk.injEq] at h2
          obtain ⟨rfl, rfl⟩ := h2
          simp
    · split at h
      · exact absurd h (by simp)
      · simp only [Option.some.injEq, Prod.mk.injEq] at h
        obtain ⟨rfl, rfl⟩ := h
        simp

theorem digitsPlus_length {s : List Char} {n : Nat} {r : List Char}
    (h : digitsPlus s = some (n, r)) : r.length ≤ s.length := by
  cases s with
  | nil => simp [digitsPlus] at h
  | cons c cs =>
    simp only [digitsPlus] at h
    split at h
    · have := digitsRest_length h
      simp only [List.length_cons]
      omega
    · exact absurd h (by simp)

theorem tryLinkTargets_length :
    ∀ {ts : List (List Char)} {s : List Char} {n : Nat} {r : List Char},
      tryLinkTargets ts s = some (n, r) → r.length ≤ s.length := by
  intro ts
  induction ts with
  | nil => intro s n r h; simp [tryLinkTargets] at h
  | cons t ts ih =>
    intro s n r h
    simp only [tryLinkTargets] at h
    rcases (Option.orElse_eq_some' _ _ _).mp h with h1 | ⟨_, h2⟩
    · revert h1
      split
      · intro h1
        rename_i rest2 hlit
        have hl := litCI_length hlit
        have := digitsPlus_length h1
        omega
      · intro h1; exact absurd h1 (by simp)
    · exact ih h2

theorem afterKeyword_length {rgx : LinkedIssuesRegex} {s : List Char} {n : Nat}
    {r : List Char} (h : afterKeyword rgx s = some (n, r)) :
    r.length ≤ s.length := by
  exact wsPlus_length _ (fun s n r hc => tryLinkTargets_length hc) s n r h

theorem tryKeywords_length {rgx : LinkedIssuesRegex} :
    ∀ {kws : List (List Char)} {s : List Char} {n : Nat} {r : List Char},
      (∀ kw ∈ kws, kw ≠ []) →
      tryKeywords rgx kws s = some (n, r) → r.length < s.length := by
  intro kws
  induction kws with
  | nil => intro s n r _ h; simp [tryKeywords] at h
  | cons kw kws ih =>
    intro s n r hne h
    simp only [tryKeywords] at h
    rcases (Option.orElse_eq_some' _ _ _).mp h with h1 | ⟨_, h2⟩
    · revert h1
      split
      · intro h1
        rename_i rest2 hlit
        have hl := litCI_length hlit
        have ha := afterKeyword_length h1
        have hkw : kw ≠ [] := hne kw (by simp)
        have : 0 < kw.length := List.length_pos.mpr hkw
        omega
      · intro h1; exact absurd h1 (by simp)
    · exact ih (fun k hk => hne k (by simp [hk])) h2

theorem matchHere_length {rgx : LinkedIssuesRegex} {pw : Bool} {s : List Char}
    {n : Nat} {r : List Char} (h : matchHere rgx pw s = some (n, r)) :
    r.length < s.length := by
  simp only [matchHere] at h
  split at h
  · refine tryKeywords_length ?_ h
    intro kw hkw
    simp only [keywords, List.mem_map] at hkw
    obtain ⟨str, hstr, rfl⟩ := hkw
    fin_cases hstr <;> simp
  · exact absurd h (by simp)

/-- The scanning loop of `findall`: attempt a match at every position, left to
right; on a match, record `(position, captured number)` and resume right after
the consumed text (matches do not overlap); otherwise advance one character.
`pos` is the index of the current position in the whole body and `prevWord`
whether the character before it is a word character. Every step consumes at
least one character, so `fuel` larger than the remaining input never runs out
(`findAllFrom_fuel_enough`); the fuel only makes the recursion structural. -/
def findAllFrom (rgx : LinkedIssuesRegex) :
    Nat → Bool → List Char → Nat → List (Nat × Nat)
  | 0, _, _, _ => []
  | fuel + 1, prevWord, rest, pos =>
    match matchHere rgx prevWord rest with
    | some (n, rest2) =>
      (pos, n) :: findAllFrom rgx fuel true rest2 (pos + (rest.length - rest2.length))
    | none =>
      match rest with
      | [] => []
      | c :: cs => findAllFrom rgx fuel (isWordChar c) cs (pos + 1)

theorem findAllFrom_fuel_enough (rgx : LinkedIssuesRegex) :
    ∀ (fuel fuel2 : Nat) (prevWord : Bool) (rest : List Char) (pos : Nat),
      rest.length < fuel → rest.length < fuel2 →
      findAllFrom rgx fuel prevWord rest pos =
        findAllFrom rgx fuel2 prevWord rest pos := by
  intro fuel
  induction fuel with
  | zero => intro fuel2 pw rest pos h1 h2; omega
  | succ fuel ih =>
    intro fuel2 pw rest pos h1 h2
    cases fuel2 with
    | zero => omega
    | succ fuel2 =>
      simp only [findAllFrom]
      cases hm : matchHere rgx pw rest with
      | some r =>
        obtain ⟨n, rest2⟩ := r
        have hlt := matchHere_length hm
        simp only
        rw [ih fuel2 true rest2 _ (by omega) (by omega)]
      | none =>
        cases rest with
        | nil => rfl
        | cons c cs =>
          simp only [List.length_cons] at h1 h2
          simp only
          rw [ih fuel2 (isWordChar c) cs _ (by omega) (by omega)]

/-- `linked_issues_regex.findall(pull_body)`, keeping the match positions and
with each captured digit group already folded to its number by `int`. -/
def findall (rgx : LinkedIssuesRegex) (body : String) : List (Nat × Nat) :=
  findAllFrom rgx (body.data.length + 1) false body.data 0

/-- `_make_linked_issues_regex(owner, repo)`: the `'.'.replace` escaping makes
dots literal in the compiled pattern, which the literal matcher reflects, so
the compiled object is determined by the repository coordinates. -/
def make_linked_issues_regex (owner repo : String) : LinkedIssuesRegex :=
  { owner := owner, repo := repo }

/-- `_extract_linked_issue_numbers(pull_body, linked_issues_regex)`:
`None` bodies yield `[]`; otherwise `int` of every group found by `findall`,
in match order. -/
def extract_linked_issue_numbers (pull_body : Option String)
    (rgx : LinkedIssuesRegex) : List Nat :=
  match pull_body with
  | none => []
  | some body => (findall rgx body).map (fun p => p.2)

/-!
The page loop of `Crawler.crawl` (crawler.py lines 145-175). Pages arrive
from an oracle `pages : Nat → List PullItem`; page processing is pure, so the
run is recorded as a trace of the observable actions (HTTP fetches and JSON
file writes) in program order.
-/

/-- A pull-request summary as the crawler reads it from a listing page:
`p.get('body')`, `p['merged_at']`, `p['number']`, and the
`linked_issue_numbers` key, absent (`none`) until line 157 adds it. -/
structure PullItem where
  number : Nat
  body : Option String
  merged_at : Option String
  linked_issue_numbers : Option (List Nat) := none
deriving DecidableEq

/-- Python truthiness of `p['merged_at']` (a JSON string or `null`):
`None` and the empty string are falsy. -/
def mergedTruthy : Option String → Bool
  | none => false
  | some s => s != ""

/-- The qualification test of line 154: `linked_issue_numbers and
p['merged_at']` (a non-empty extracted list and a truthy timestamp). -/
def qualifies (rgx : LinkedIssuesRegex) (p : PullItem) : Bool :=
  !(extract_linked_issue_numbers p.body rgx).isEmpty && mergedTruthy p.merged_at

/-- `d[k] = v` on a Python dict kept as an insertion-ordered association
list: an existing key keeps its position and receives the new value, a new
key is appended. -/
def dictInsert (d : List (Nat × List Nat)) (k : Nat) (v : List Nat) :
    List (Nat × List Nat) :=
  if d.any (fun q => q.1 == k) then
    d.map (fun q => if q.1 == k then (k, v) else q)
  else d ++ [(k, v)]

/-- One iteration of the `for p in pulls` filtering loop (lines 152-157):
extract the linked issue numbers, record qualifying pulls in
`pulls_issue_numbers`, and, when page saving is enabled, add the
`linked_issue_numbers` key to the page item itself. The state is
`(pulls_issue_numbers, page items processed so far)`. -/
def filterStep (savePages : Bool) (rgx : LinkedIssuesRegex)
    (st : List (Nat × List Nat) × List PullItem) (p : PullItem) :
    List (Nat × List Nat) × List PullItem :=
  let linked := extract_linked_issue_numbers p.body rgx
  let d := if !linked.isEmpty && mergedTruthy p.merged_at then
             dictInsert st.1 p.number linked
           else st.1
  let p2 := if savePages then { p with linked_issue_numbers := some linked } else p
  (d, st.2 ++ [p2])

/-- The whole filtering loop over a page. -/
def filterPass (savePages : Bool) (rgx : LinkedIssuesRegex)
    (pulls : List PullItem) : List (Nat × List Nat) × List PullItem :=
  pulls.foldl (filterStep savePages rgx) ([], [])

/-- The annotation of line 157: `p['linked_issue_numbers'] =
linked_issue_numbers` on a page item. -/
def annotate (rgx : LinkedIssuesRegex) (p : PullItem) : PullItem :=
  { p with linked_issue_numbers := some (extract_linked_issue_numbers p.body rgx) }

/-- Observable actions of a crawl, in program order. `savePage` carries the
page list exactly as written to `pulls-page-N.json`; `savePull` carries the
`linked_issue_numbers` list attached to the pull before it is written. -/
inductive Event where
  | fetchPage : Nat → List PullItem → Event
  | savePage : Nat → List PullItem → Event
  | fetchPull : Nat → Event
  | savePull : Nat → List Nat → Event
  | fetchIssue : Nat → Event
  | saveIssue : Nat → Event
deriving DecidableEq

/-- The detail loop (lines 160-168): for each entry of `pulls_issue_numbers`
in insertion order, fetch the full pull, attach its list and save it, then
fetch and save each linked issue in list order. -/
def detailEvents (d : List (Nat × List Nat)) : List Event :=
  d.flatMap (fun q =>
    Event.fetchPull q.1 :: Event.savePull q.1 q.2 ::
      q.2.flatMap (fun m => [Event.fetchIssue m, Event.saveIssue m]))

/-- Processing of one fetched page (lines 151-168): the filtering pass, then
the page save when enabled (line 158-159), then the detail loop. -/
def processPage (savePages : Bool) (rgx : LinkedIssuesRegex) (page : Nat)
    (pulls : List PullItem) : List Event :=
  let st := filterPass savePages rgx pulls
  (if savePages then [Event.savePage page st.2] else []) ++ detailEvents st.1

/-- How `Crawler.crawl` returns: the normal return of line 174 with the final
`num_issues`/`num_pulls` totals, the exit of the `while` loop through the
interrupt flag, or the model artifact of running out of unfolding fuel. -/
inductive CrawlResult where
  | terminated : Nat → Nat → CrawlResult
  | interrupted : CrawlResult
  | outOfFuel : CrawlResult
deriving DecidableEq

/-- The page loop (lines 149-175). `pages n` is the listing the API returns
for page `n`; `sigint k` is whether a SIGINT has been delivered by the time
of the `k`-th check of the loop condition (the handler sets `_interrupted`,
which the loop reads only there). `fuel` bounds how many iterations the model
unfolds. Returns the result, the trace, and the flag state on exit. -/
def crawlLoop (perPage : Nat) (savePages : Bool) (rgx : LinkedIssuesRegex)
    (pages : Nat → List PullItem) (sigint : Nat → Bool) :
    Nat → Nat → Nat → Nat → Nat → CrawlResult × List Event
  | 0, _, _, _, _ => (.outOfFuel, [])
  | fuel + 1, page, k, numIssues, numPulls =>
    if sigint k then (.interrupted, [])
    else
      let pulls := pages page
      let d := (filterPass savePages rgx pulls).1
      let evs := Event.fetchPage page pulls :: processPage savePages rgx page pulls
      let numPulls2 := numPulls + d.length
      let numIssues2 := numIssues + (d.map (fun q => q.2.length)).sum
      if pulls.length < perPage then
        (.terminated numIssues2 numPulls2, evs)
      else
        let r := crawlLoop perPage savePages rgx pages sigint fuel (page + 1)
                  (k + 1) numIssues2 numPulls2
        (r.1, evs ++ r.2)

/-- `Crawler.crawl(owner, repo, start_page)` from line 145 on:
`prevInterrupted` is the state of the crawler's `_interrupted` flag on entry,
which line 148 resets to `False` before the loop. -/
def crawl (perPage : Nat) (savePages : Bool) (owner repo : String)
    (pages : Nat → List PullItem) (sigint : Nat → Bool)
    (startPage fuel : Nat) (_prevInterrupted : Bool) : CrawlResult × List Event :=
  crawlLoop perPage savePages (make_linked_issues_regex owner repo) pages sigint
    fuel startPage 0 0 0

/-- One repository given to `main` on the command line, with the pages its
crawl would see and the SIGINT deliveries during it. -/
structure RepoTask where
  owner : String
  repo : String
  pages : Nat → List PullItem
  sigint : Nat → Bool
  startPage : Nat

/-- Flag state of the crawler after one crawl: an interrupted loop exit means
the flag was set; otherwise it keeps whatever the handler left there. -/
def flagAfter (res : CrawlResult) (flag : Bool) : Bool :=
  match res with
  | .interrupted => true
  | _ => flag

/-- The per-repository loop of `main` (lines 263-271): the same `Crawler`
instance crawls each repository in turn, so its `_interrupted` flag carries
over from one crawl to the next until line 148 resets it. -/
def runRepos (perPage : Nat) (savePages : Bool) (fuel : Nat) :
    List RepoTask → Bool → List (CrawlResult × List Event)
  | [], _ => []
  | t :: ts, flag =>
    let r := crawl perPage savePages t.owner t.repo t.pages t.sigint
              t.startPage fuel flag
    r :: runRepos perPage savePages fuel ts (flagAfter r.1 flag)

/-- The page numbers fetched during a run, in fetch order. -/
def fetchedPages (evs : List Event) : List Nat :=
  evs.filterMap (fun e => match e with | .fetchPage n _ => some n | _ => none)

/-- Whether a `pull-<n>.json` write appears in a trace. -/
def pullSaved (n : Nat) (evs : List Event) : Bool :=
  evs.any (fun e => match e with | .savePull m _ => m == n | _ => false)

/-- Whether a `pulls-page-<N>.json` write appears in a trace. -/
def pageSaved (evs : List Event) : Bool :=
  evs.any (fun e => match e with | .savePage _ _ => true | _ => false)

/-- Number of `issue-<m>.json` writes in a trace. -/
def issueSaveCount (m : Nat) (evs : List Event) : Nat :=
  evs.count (Event.saveIssue m)

/-- Number of fetches of issue `m` in a trace. -/
def issueFetchCount (m : Nat) (evs : List Event) : Nat :=
  evs.count (Event.fetchIssue m)

/-!
`Crawler._try_to_get` and `Crawler._get` (crawler.py lines 177-209), over a
stream of HTTP outcomes consumed one per issued request. Time is an integer
clock advanced by the modelled sleeps.
-/

/-- The JSON value parsed from a response body: a JSON object may carry a
`message` key (the API error envelope of line 206); any other parsed value is
opaque. -/
inductive Json where
  | obj : Bool → Nat → Json
  | val : Nat → Json
deriving DecidableEq

/-- `isinstance(rj, dict) and 'message' in rj`. -/
def isErrorEnvelope : Json → Bool
  | .obj hasMessage _ => hasMessage
  | .val _ => false

/-- One observed exchange for `requests.get`: either the call raises, or a
response arrives with its status (`r.ok`), its `X-Ratelimit-Remaining` and
`X-Ratelimit-Reset` headers when present, and the result of `r.json()`
(`none` when parsing raises). -/
inductive HttpOutcome where
  | exn : HttpOutcome
  | resp (ok : Bool) (remaining : Option Int) (reset : Option Int)
      (json : Option Json) : HttpOutcome
deriving DecidableEq

/-- The sleeps a request performs: the rate-limit wait of line 199 and the
fixed retry wait of line 188. -/
inductive Sleep where
  | rateLimitWait : Int → Sleep
  | retryWait : Nat → Sleep
deriving DecidableEq

/-- What one call of `_try_to_get` produces: its return value (`none` is
Python `None`, a failed try), the unconsumed rest of the outcome stream, the
clock after the call, and the sleeps performed. -/
structure TryResult where
  result : Option Json
  rest : List HttpOutcome
  now : Int
  sleeps : List Sleep
deriving DecidableEq

/-- `Crawler._try_to_get` (lines 190-209): an exception, a non-ok response
outside the rate-limit case, an unparsable body or an error envelope yield
`None`; a non-ok response whose `X-Ratelimit-Remaining` is below 1 and which
has an `X-Ratelimit-Reset` makes the client sleep `reset - now + 1` seconds
and re-issue the request recursively. An exhausted stream behaves like a
transport exception. -/
def tryToGet : List HttpOutcome → Int → TryResult
  | [], now => ⟨none, [], now, []⟩
  | .exn :: rest, now => ⟨none, rest, now, []⟩
  | .resp ok remaining reset json :: rest, now =>
    if ok then
      match json with
      | none => ⟨none, rest, now, []⟩
      | some j =>
        if isErrorEnvelope j then ⟨none, rest, now, []⟩ else ⟨some j, rest, now, []⟩
    else
      match remaining, reset with
      | some q, some t =>
        if q < 1 then
          let wait := t - now + 1
          let r := tryToGet rest (now + wait)
          ⟨r.result, r.rest, r.now, Sleep.rateLimitWait wait :: r.sleeps⟩
        else ⟨none, rest, now, []⟩
      | _, _ => ⟨none, rest, now, []⟩

theorem tryToGet_rest_suffix :
    ∀ (s : List HttpOutcome) (now : Int), (tryToGet s now).rest <:+ s := by
  intro s
  induction s with
  | nil => intro now; simp [tryToGet]
  | cons a as ih =>
    intro now
    match a with
    | .exn => simpa [tryToGet] using (List.suffix_cons HttpOutcome.exn as)
    | .resp ok remaining reset json =>
      simp only [tryToGet]
      split
      · match json with
        | none => simpa using List.suffix_cons _ as
        | some j =>
          by_cases hj : isErrorEnvelope j = true <;>
            simp [hj] <;> exact List.suffix_cons _ as
      · match remaining, reset with
        | some q, some t =>
          by_cases hq : q < 1
          · simp only [hq, if_true]
            exact ((ih _).trans (List.suffix_cons _ as))
          · simpa [hq] using List.suffix_cons _ as
        | some q, none => simpa using List.suffix_cons _ as
        | none, some t => simpa using List.suffix_cons _ as
        | none, none => simpa using List.suffix_cons _ as

theorem tryToGet_rest_lt (a : HttpOutcome) (as : List HttpOutcome) (now : Int) :
    (tryToGet (a :: as) now).rest.length < (a :: as).length := by
  match a with
  | .exn => simp [tryToGet]
  | .resp ok remaining reset json =>
    simp only [tryToGet]
    split
    · match json with
      | none => simp
      | some j => by_cases hj : isErrorEnvelope j = true <;> simp [hj]
    · match remaining, reset with
      | some q, some t =>
        by_cases hq : q < 1
        · simp only [hq, if_true]
          have := (tryToGet_rest_suffix as (now + (t - now + 1))).length_le
          simp only [List.length_cons]
          omega
        · simp [hq]
      | some q, none => simp
      | none, some t => simp
      | none, none => simp

/-- The fatal error of `Crawler._get` (line 186). -/
inductive GetError where
  | tooManyRequestFailures (url : String) (tries : Nat) : GetError
deriving DecidableEq

/-- The `while True` retry loop of `Crawler._get` (lines 177-188), entered
with the current value of the `tries` counter: a successful try returns its
value; otherwise `tries` is incremented, and when it reaches
`max_request_tries` the fatal error is raised, else the client sleeps
`request_retry_wait_secs` and retries. -/
def getLoop (url : String) (maxRequestTries requestRetryWaitSecs : Nat)
    (tries : Nat) (stream : List HttpOutcome) (now : Int) :
    Except GetError Json × List Sleep :=
  match h : tryToGet stream now with
  | ⟨some j, _, _, sleeps⟩ => (.ok j, sleeps)
  | ⟨none, rest, now2, sleeps⟩ =>
    if maxRequestTries ≤ tries + 1 then
      (.error (.tooManyRequestFailures url (tries + 1)), sleeps)
    else
      let r := getLoop url maxRequestTries requestRetryWaitSecs (tries + 1) rest
                (now2 + requestRetryWaitSecs)
      (r.1, sleeps ++ Sleep.retryWait requestRetryWaitSecs :: r.2)
termination_by stream.length + (maxRequestTries - tries)
decreasing_by
  rename_i hlt
  cases stream with
  | nil =>
    have hr : rest = [] := by
      have : tryToGet [] now = ⟨none, [], now, []⟩ := rfl
      rw [this] at h
      cases h
      rfl
    subst hr
    simp
    omega
  | cons a as =>
    have := tryToGet_rest_lt a as now
    rw [h] at this
    simp only [List.length_cons] at this ⊢
    omega

/-- `Crawler._get(url)`: the retry loop starting with `tries = 0`. -/
def get (url : String) (maxRequestTries requestRetryWaitSecs : Nat)
    (stream : List HttpOutcome) (now : Int) : Except GetError Json × List Sleep :=
  getLoop url maxRequestTries requestRetryWaitSecs 0 stream now

/-!
`write_dataset` (writer.py lines 49-143). The claim under verification is
about which rows are emitted and in which order, so a row is modelled by its
identity `(owner, repo, pull number, issue number)`; the joined issue fields
and the other pull fields vary per row but do not affect multiplicity or
order. The source tree is modelled by the directory listing the writer walks:
owners, their repositories, and the `pull-N.json` files of each repository
(filesystem listings, so file and directory names are distinct; `os.listdir`
order is unspecified and the writer sorts every listing). -/

/-- A `pull-N.json` document as the writer reads it: the file's number and
its `linked_issue_numbers` list. -/
structure PullFile where
  number : Nat
  linked_issue_numbers : List Nat
deriving DecidableEq

/-- A repository directory: its name and its pull files. -/
abbrev RepoDir := String × List PullFile

/-- The source directory: owners with their repository directories. -/
abbrev SrcTree := List (String × List RepoDir)

/-- One emitted CSV row, by its identity
`(owner, repo, pull_number, issue_number)`. -/
abbrev Row := String × String × Nat × Nat

/-- `_sorted_owner_repo_pairs` (lines 128-137): owners sorted, then for each
owner its repositories sorted, flattened in that order. Each pair keeps the
repository's pull files so the main loop can read them. -/
def sorted_owner_repo_pairs (tree : SrcTree) : List (String × RepoDir) :=
  (tree.mergeSort (fun a b => decide (a.1 ≤ b.1))).flatMap
    (fun o => (o.2.mergeSort (fun a b => decide (a.1 ≤ b.1))).map
      (fun r => (o.1, r)))

/-- `_sorted_pull_numbers` (lines 139-143) followed by the per-number file
reads of line 114: the numbers parsed from the distinct `pull-N.json`
filenames are sorted and each file is read back, so the loop visits the pull
files in ascending number order. -/
def sorted_pull_files (files : List PullFile) : List PullFile :=
  files.mergeSort (fun a b => decide (a.number ≤ b.number))

/-- The inner row loop of `write_dataset` (lines 116-124) over the sorted
`linked_issue_numbers` of one pull: each issue number yields one row and
increments `total_num_rows`; when the counter reaches `limit_rows` the writer
returns early. Produces the rows, the new counter, and whether the limit
fired. -/
def writeIssueRows (owner repo : String) (pullNumber : Nat) :
    List Nat → Nat → Nat → List Row × Nat × Bool
  | [], total, _ => ([], total, false)
  | m :: ms, total, limit =>
    if total + 1 = limit then ([(owner, repo, pullNumber, m)], total + 1, true)
    else
      let r := writeIssueRows owner repo pullNumber ms (total + 1) limit
      ((owner, repo, pullNumber, m) :: r.1, r.2)

/-- The pull loop of `write_dataset` (lines 113-124): pull files in ascending
number order, each with its `linked_issue_numbers` sorted in place by
line 115. -/
def writePullRows (owner repo : String) :
    List PullFile → Nat → Nat → List Row × Nat × Bool
  | [], total, _ => ([], total, false)
  | pf :: pfs, total, limit =>
    let r1 := writeIssueRows owner repo pf.number
                (pf.linked_issue_numbers.mergeSort (fun a b => decide (a ≤ b)))
                total limit
    if r1.2.2 then r1
    else
      let r2 := writePullRows owner repo pfs r1.2.1 limit
      (r1.1 ++ r2.1, r2.2)

/-- The repository loop of `write_dataset` (lines 108-124). -/
def writePairRows : List (String × RepoDir) → Nat → Nat → List Row × Nat × Bool
  | [], total, _ => ([], total, false)
  | p :: ps, total, limit =>
    let r1 := writePullRows p.1 p.2.1 (sorted_pull_files p.2.2) total limit
    if r1.2.2 then r1
    else
      let r2 := writePairRows ps r1.2.1 limit
      (r1.1 ++ r2.1, r2.2)

/-- `write_dataset(src_dir, dst_file, limit_rows)`: the rows written after
the header, in order. The check `total_num_rows == limit_rows` runs after
each increment, so `limit_rows = 0` (the default) never fires. -/
def write_dataset (tree : SrcTree) (limit_rows : Nat) : List Row :=
  (writePairRows (sorted_owner_repo_pairs tree) 0 limit_rows).1

/-- Lexicographic order on row identities: owner, repo, pull number, then
issue number. -/
def rowLe (a b : Row) : Bool :=
  if a.1 ≠ b.1 then decide (a.1 ≤ b.1)
  else if a.2.1 ≠ b.2.1 then decide (a.2.1 ≤ b.2.1)
  else if a.2.2.1 ≠ b.2.2.1 then decide (a.2.2.1 ≤ b.2.2.1)
  else decide (a.2.2.2 ≤ b.2.2.2)

/-! Theorems. -/

theorem findAllFrom_pos_le (rgx : LinkedIssuesRegex) :
    ∀ (fuel : Nat) (pw : Bool) (rest : List Char) (pos : Nat),
      ∀ p ∈ findAllFrom rgx fuel pw rest pos, pos ≤ p.1 := by
  intro fuel
  induction fuel with
  | zero => intro pw rest pos p hp; simp [findAllFrom] at hp
  | succ fuel ih =>
    intro pw rest pos p hp
    simp only [findAllFrom] at hp
    cases hm : matchHere rgx pw rest with
    | some r =>
      obtain ⟨n, rest2⟩ := r
      rw [hm] at hp
      simp only [List.mem_cons] at hp
      rcases hp with rfl | hp
      · simp
      · have := ih true rest2 (pos + (rest.length - rest2.length)) p hp
        omega
    | none =>
      rw [hm] at hp
      cases rest with
      | nil => simp at hp
      | cons c cs =>
        have := ih (isWordChar c) cs (pos + 1) p hp
        omega

theorem findAllFrom_pos_sorted (rgx : LinkedIssuesRegex) :
    ∀ (fuel : Nat) (pw : Bool) (rest : List Char) (pos : Nat),
      List.Pairwise (fun a b => a < b)
        ((findAllFrom rgx fuel pw rest pos).map Prod.fst) := by
  intro fuel
  induction fuel with
  | zero => intro pw rest pos; simp [findAllFrom]
  | succ fuel ih =>
    intro pw rest pos
    simp only [findAllFrom]
    cases hm : matchHere rgx pw rest with
    | some r =>
      obtain ⟨n, rest2⟩ := r
      have hlt := matchHere_length hm
      simp only [List.map_cons, List.pairwise_cons]
      constructor
      · intro a ha
        simp only [List.mem_map] at ha
        obtain ⟨p, hp, rfl⟩ := ha
        have := findAllFrom_pos_le rgx fuel true rest2
          (pos + (rest.length - rest2.length)) p hp
        omega
      · exact ih true rest2 (pos + (rest.length - rest2.length))
    | none =>
      cases rest with
      | nil => simp
      | cons c cs => exact ih (isWordChar c) cs (pos + 1)

/-- C2 counterexample: for repository `owner/repo`, the compiled pattern
applied to the body
`"Fixes #12 and owner/repo#34, see Owner/Repo/issues/56"` does not yield
`[12, 34, 56]`: only `#12` follows a closing keyword; `owner/repo#34`
follows the word `and` and `Owner/Repo/issues/56` follows `see` and lacks
the `https://github.com/` part required of the URL form. -/
theorem extraction_example_full_list_refuted :
    ¬ (extract_linked_issue_numbers
        (some "Fixes #12 and owner/repo#34, see Owner/Repo/issues/56")
        (make_linked_issues_regex "owner" "repo") = [12, 34, 56]) := by
  decide

/-- C2 amended: for repository `owner/repo`, the compiled pattern applied to
the body `"Fixes #12 and owner/repo#34, see Owner/Repo/issues/56"` yields
`[12]`, and the result is the same regardless of the case of the closing
keyword (`Fixes`, `fixes`, `FIXES`). -/
theorem extraction_example_yields_twelve :
    extract_linked_issue_numbers
        (some "Fixes #12 and owner/repo#34, see Owner/Repo/issues/56")
        (make_linked_issues_regex "owner" "repo") = [12] ∧
    extract_linked_issue_numbers
        (some "fixes #12 and owner/repo#34, see Owner/Repo/issues/56")
        (make_linked_issues_regex "owner" "repo") = [12] ∧
    extract_linked_issue_numbers
        (some "FIXES #12 and owner/repo#34, see Owner/Repo/issues/56")
        (make_linked_issues_regex "owner" "repo") = [12] := by
  refine ⟨by decide, by decide, by decide⟩

/-- C7: extraction from a `None` pull body yields `[]` for every compiled
pattern; for a non-null body the result lists the captured numbers of the
matches found by the left-to-right scan, whose start positions are strictly
increasing — the order of the returned numbers mirrors the order the
references appear in the body; duplicates are kept and nothing is sorted, as
the body `"Fixes #7, fixes #7 and closes #3"` yielding `[7, 7, 3]` shows. -/
theorem extraction_null_body_order_duplicates :
    (∀ rgx : LinkedIssuesRegex, extract_linked_issue_numbers none rgx = []) ∧
    (∀ (rgx : LinkedIssuesRegex) (body : String),
      extract_linked_issue_numbers (some body) rgx =
        (findall rgx body).map Prod.snd ∧
      List.Pairwise (fun a b => a < b) ((findall rgx body).map Prod.fst)) ∧
    extract_linked_issue_numbers (some "Fixes #7, fixes #7 and closes #3")
      (make_linked_issues_regex "owner" "repo") = [7, 7, 3] := by
  refine ⟨fun rgx => rfl, fun rgx body => ⟨rfl, ?_⟩, by decide⟩
  exact findAllFrom_pos_sorted rgx (body.data.length + 1) false body.data 0

theorem pullSaved_issueEvents (n : Nat) :
    ∀ issues : List Nat,
      (issues.flatMap (fun m => [Event.fetchIssue m, Event.saveIssue m])).any
        (fun e => match e with | .savePull m _ => m == n | _ => false) = false := by
  intro issues
  induction issues with
  | nil => rfl
  | cons m ms ih => simpa using ih

theorem pullSaved_detailEvents (n : Nat) :
    ∀ d : List (Nat × List Nat),
      pullSaved n (detailEvents d) = d.any (fun q => q.1 == n) := by
  intro d
  induction d with
  | nil => rfl
  | cons q d ih =>
    simp only [detailEvents, pullSaved, List.flatMap_cons, List.any_append,
      List.any_cons] at ih ⊢
    rw [pullSaved_issueEvents]
    simp only [Bool.false_or, Bool.or_false]
    rw [ih]

theorem any_key_map_update (k : Nat) (v : List Nat) (n : Nat) :
    ∀ d : List (Nat × List Nat),
      (d.map (fun q => if q.1 == k then (k, v) else q)).any
        (fun q => q.1 == n) = d.any (fun q => q.1 == n) := by
  intro d
  induction d with
  | nil => rfl
  | cons q d ih =>
    simp only [List.map_cons, List.any_cons, ih]
    by_cases h : q.1 = k <;> simp [h]

theorem any_key_dictInsert (d : List (Nat × List Nat)) (k : Nat) (v : List Nat)
    (n : Nat) :
    (dictInsert d k v).any (fun q => q.1 == n) =
      (d.any (fun q => q.1 == n) || k == n) := by
  unfold dictInsert
  split
  · rename_i hk
    rw [any_key_map_update]
    by_cases hkn : k = n
    · subst hkn
      simp [hk]
    · simp [hkn]
  · simp [List.any_append]

theorem foldl_filterStep_keys (savePages : Bool) (rgx : LinkedIssuesRegex)
    (n : Nat) :
    ∀ (items : List PullItem) (d0 : List (Nat × List Nat))
      (out0 : List PullItem),
      (items.foldl (filterStep savePages rgx) (d0, out0)).1.any
          (fun q => q.1 == n) =
        (d0.any (fun q => q.1 == n) ||
          items.any (fun p => qualifies rgx p && p.number == n)) := by
  intro items
  induction items with
  | nil => intro d0 out0; simp
  | cons p items ih =>
    intro d0 out0
    simp only [List.foldl_cons, List.any_cons]
    have hstep := ih (filterStep savePages rgx (d0, out0) p).1
      (filterStep savePages rgx (d0, out0) p).2
    rw [Prod.mk.eta] at hstep
    rw [hstep]
    have hfst : (filterStep savePages rgx (d0, out0) p).1 =
        (if qualifies rgx p then
          dictInsert d0 p.number (extract_linked_issue_numbers p.body rgx)
         else d0) := rfl
    rw [hfst]
    by_cases hq : qualifies rgx p = true
    · rw [hq]
      simp only [if_true, any_key_dictInsert, hq, Bool.true_and, Bool.or_assoc]
    · rw [Bool.not_eq_true] at hq
      rw [hq]
      simp

/-- C1 amended: a `pull-<number>.json` write happens for a page item's number
iff some item of the page with that number has a truthy `merged_at` — a
non-null, non-empty timestamp string — and a non-empty extracted list of
linked issue numbers (line 154 tests Python truthiness of `p['merged_at']`,
not only non-nullness). -/
theorem crawl_pull_persisted_iff (savePages : Bool) (rgx : LinkedIssuesRegex)
    (page : Nat) (items : List PullItem) (n : Nat) :
    pullSaved n (processPage savePages rgx page items) = true ↔
      ∃ p ∈ items, p.number = n ∧
        extract_linked_issue_numbers p.body rgx ≠ [] ∧
        mergedTruthy p.merged_at = true := by
  have h1 : pullSaved n (processPage savePages rgx page items) =
      pullSaved n (detailEvents (filterPass savePages rgx items).1) := by
    unfold processPage pullSaved
    cases savePages <;> simp
  rw [h1, pullSaved_detailEvents]
  unfold filterPass
  rw [foldl_filterStep_keys]
  simp only [List.any_nil, Bool.false_or, List.any_eq_true]
  constructor
  · rintro ⟨p, hp, hcond⟩
    rw [Bool.and_eq_true] at hcond
    refine ⟨p, hp, by simpa using hcond.2, ?_, ?_⟩
    · have := hcond.1
      unfold qualifies at this
      rw [Bool.and_eq_true] at this
      simpa using this.1
    · have := hcond.1
      unfold qualifies at this
      rw [Bool.and_eq_true] at this
      exact this.2
  · rintro ⟨p, hp, hnum, hext, hmerged⟩
    refine ⟨p, hp, ?_⟩
    rw [Bool.and_eq_true]
    refine ⟨?_, by simpa using hnum⟩
    unfold qualifies
    rw [Bool.and_eq_true]
    exact ⟨by simpa using hext, hmerged⟩

/-- C1 counterexample: a page item whose `merged_at` is the empty string —
non-null — and whose body links issue 1 is not persisted: line 154 tests the
truthiness of `p['merged_at']`, and the empty string is falsy, so the claimed
"persisted iff `merged_at` non-null and links non-empty" fails here. -/
theorem crawl_pull_persisted_nonnull_refuted :
    ¬ ((((some "" : Option String) ≠ none) ∧
        extract_linked_issue_numbers (some "fixes #1")
          (make_linked_issues_regex "o" "r") ≠ []) ↔
       pullSaved 1 (processPage false (make_linked_issues_regex "o" "r") 1
         [{ number := 1, body := some "fixes #1", merged_at := some "" }]) =
         true) := by
  decide

theorem foldl_filterStep_snd (savePages : Bool) (rgx : LinkedIssuesRegex) :
    ∀ (items : List PullItem) (d0 : List (Nat × List Nat))
      (out0 : List PullItem),
      (items.foldl (filterStep savePages rgx) (d0, out0)).2 =
        out0 ++ items.map (fun p =>
          if savePages then annotate rgx p else p) := by
  intro items
  induction items with
  | nil => intro d0 out0; simp
  | cons p items ih =>
    intro d0 out0
    simp only [List.foldl_cons, List.map_cons]
    have hstep := ih (filterStep savePages rgx (d0, out0) p).1
      (filterStep savePages rgx (d0, out0) p).2
    rw [Prod.mk.eta] at hstep
    rw [hstep]
    have hsnd : (filterStep savePages rgx (d0, out0) p).2 =
        out0 ++ [if savePages then annotate rgx p else p] := rfl
    rw [hsnd]
    simp

theorem pageSaved_issueEvents :
    ∀ issues : List Nat,
      (issues.flatMap (fun m => [Event.fetchIssue m, Event.saveIssue m])).any
        (fun e => match e with | .savePage _ _ => true | _ => false) = false := by
  intro issues
  induction issues with
  | nil => rfl
  | cons m ms ih => simpa using ih

theorem pageSaved_detailEvents :
    ∀ d : List (Nat × List Nat), pageSaved (detailEvents d) = false := by
  intro d
  induction d with
  | nil => rfl
  | cons q d ih =>
    simp only [detailEvents, pageSaved, List.flatMap_cons, List.any_append,
      List.any_cons] at ih ⊢
    rw [pageSaved_issueEvents]
    simpa using ih

/-- C8: with page saving enabled, the whole page — every item, qualifying or
not, annotated with its derived `linked_issue_numbers` — is written as the
single `pulls-page-<N>.json` document, and that write is the very first
action of the page's processing, before any detail fetch or per-pull write;
with page saving disabled, no page document is written and the page items
stay unannotated. -/
theorem page_saving (rgx : LinkedIssuesRegex) (page : Nat)
    (items : List PullItem) :
    processPage true rgx page items =
      Event.savePage page (items.map (annotate rgx)) ::
        detailEvents (filterPass true rgx items).1 ∧
    pageSaved (processPage false rgx page items) = false ∧
    (filterPass false rgx items).2 = items := by
  refine ⟨?_, ?_, ?_⟩
  · have hsnd : (filterPass true rgx items).2 = items.map (annotate rgx) := by
      unfold filterPass
      rw [foldl_filterStep_snd]
      simp
    show (if true = true then [Event.savePage page (filterPass true rgx items).2]
          else []) ++ detailEvents (filterPass true rgx items).1 = _
    rw [hsnd]
    simp
  · show pageSaved
      ((if false = true then [Event.savePage page (filterPass false rgx items).2]
        else []) ++ detailEvents (filterPass false rgx items).1) = false
    simp only [if_neg Bool.false_ne_true, List.nil_append]
    exact pageSaved_detailEvents _
  · unfold filterPass
    rw [foldl_filterStep_snd]
    simp

theorem dictInsert_absent (d : List (Nat × List Nat)) (k : Nat)
    (v : List Nat) (h : d.any (fun q => q.1 == k) = false) :
    dictInsert d k v = d ++ [(k, v)] := by
  unfold dictInsert
  simp [h]

theorem foldl_filterStep_fst_nodup (savePages : Bool) (rgx : LinkedIssuesRegex) :
    ∀ (items : List PullItem) (d0 : List (Nat × List Nat))
      (out0 : List PullItem),
      (∀ p ∈ items, d0.any (fun q => q.1 == p.number) = false) →
      (items.map PullItem.number).Nodup →
      (items.foldl (filterStep savePages rgx) (d0, out0)).1 =
        d0 ++ (items.filter (qualifies rgx)).map
          (fun p => (p.number, extract_linked_issue_numbers p.body rgx)) := by
  intro items
  induction items with
  | nil => intro d0 out0 _ _; simp
  | cons p items ih =>
    intro d0 out0 habs hnd
    simp only [List.map_cons, List.nodup_cons] at hnd
    simp only [List.foldl_cons]
    have hfst : (filterStep savePages rgx (d0, out0) p).1 =
        (if qualifies rgx p then
          dictInsert d0 p.number (extract_linked_issue_numbers p.body rgx)
         else d0) := rfl
    by_cases hq : qualifies rgx p = true
    · have hd1 : (filterStep savePages rgx (d0, out0) p).1 =
          d0 ++ [(p.number, extract_linked_issue_numbers p.body rgx)] := by
        rw [hfst, if_pos hq,
          dictInsert_absent d0 p.number _ (habs p (by simp))]
      have habs2 : ∀ q ∈ items,
          (filterStep savePages rgx (d0, out0) p).1.any
            (fun r => r.1 == q.number) = false := by
        intro q hq2
        rw [hd1, List.any_append]
        have h1 : d0.any (fun r => r.1 == q.number) = false :=
          habs q (by simp [hq2])
        have h2 : p.number ≠ q.number := by
          intro hc
          exact hnd.1 (by rw [hc]; exact List.mem_map_of_mem PullItem.number hq2)
        simp [h1, h2]
      have hstep := ih (filterStep savePages rgx (d0, out0) p).1
        (filterStep savePages rgx (d0, out0) p).2 habs2 hnd.2
      rw [Prod.mk.eta] at hstep
      rw [hstep, hd1]
      simp only [List.filter_cons, hq, if_pos, List.map_cons,
        List.append_assoc]
      simp
    · rw [Bool.not_eq_true] at hq
      have hd1 : (filterStep savePages rgx (d0, out0) p).1 = d0 := by
        rw [hfst, hq]
        simp
      have habs2 : ∀ q ∈ items,
          (filterStep savePages rgx (d0, out0) p).1.any
            (fun r => r.1 == q.number) = false := by
        intro q hq2
        rw [hd1]
        exact habs q (by simp [hq2])
      have hstep := ih (filterStep savePages rgx (d0, out0) p).1
        (filterStep savePages rgx (d0, out0) p).2 habs2 hnd.2
      rw [Prod.mk.eta] at hstep
      rw [hstep, hd1]
      simp [List.filter_cons, hq]

theorem count_issueEvents_save (m : Nat) :
    ∀ issues : List Nat,
      (issues.flatMap (fun j => [Event.fetchIssue j, Event.saveIssue j])).count
        (Event.saveIssue m) = issues.count m := by
  intro issues
  induction issues with
  | nil => rfl
  | cons j js ih =>
    simp only [List.flatMap_cons, List.cons_append, List.nil_append,
      List.count_cons, ih, beq_iff_eq]
    by_cases h : j = m <;> simp [h]

theorem count_issueEvents_fetch (m : Nat) :
    ∀ issues : List Nat,
      (issues.flatMap (fun j => [Event.fetchIssue j, Event.saveIssue j])).count
        (Event.fetchIssue m) = issues.count m := by
  intro issues
  induction issues with
  | nil => rfl
  | cons j js ih =>
    simp only [List.flatMap_cons, List.cons_append, List.nil_append,
      List.count_cons, ih, beq_iff_eq]
    by_cases h : j = m <;> simp [h]

theorem count_detailEvents_save (m : Nat) :
    ∀ d : List (Nat × List Nat),
      (detailEvents d).count (Event.saveIssue m) =
        (d.map (fun q => q.2.count m)).sum := by
  intro d
  induction d with
  | nil => rfl
  | cons q d ih =>
    simp only [detailEvents, List.flatMap_cons, List.count_cons,
      List.count_append, beq_iff_eq] at ih ⊢
    rw [count_issueEvents_save]
    simp [ih]

theorem count_detailEvents_fetch (m : Nat) :
    ∀ d : List (Nat × List Nat),
      (detailEvents d).count (Event.fetchIssue m) =
        (d.map (fun q => q.2.count m)).sum := by
  intro d
  induction d with
  | nil => rfl
  | cons q d ih =>
    simp only [detailEvents, List.flatMap_cons, List.count_cons,
      List.count_append, beq_iff_eq] at ih ⊢
    rw [count_issueEvents_fetch]
    simp [ih]

/-- C6: for a page whose items carry distinct pull numbers,
`pulls_issue_numbers` lists exactly the qualifying pulls in first-seen page
order with their extracted lists, the page's detail processing is, per
qualifying pull in that order, a pull fetch, the pull save carrying its
attached list, then per linked issue number in list order an issue fetch and
an issue save; and issue `m` is fetched and saved once per occurrence in each
qualifying pull's list — an issue linked by two qualifying pulls is re-fetched
and overwritten, never deduplicated. -/
theorem crawl_detail_order (savePages : Bool) (rgx : LinkedIssuesRegex)
    (page : Nat) (items : List PullItem)
    (hnd : (items.map PullItem.number).Nodup) :
    (filterPass savePages rgx items).1 =
      (items.filter (qualifies rgx)).map
        (fun p => (p.number, extract_linked_issue_numbers p.body rgx)) ∧
    processPage savePages rgx page items =
      (if savePages then [Event.savePage page (filterPass savePages rgx items).2]
       else []) ++
      ((items.filter (qualifies rgx)).map
        (fun p => (p.number, extract_linked_issue_numbers p.body rgx))).flatMap
        (fun q => Event.fetchPull q.1 :: Event.savePull q.1 q.2 ::
          q.2.flatMap (fun j => [Event.fetchIssue j, Event.saveIssue j])) ∧
    ∀ m : Nat,
      issueSaveCount m (processPage savePages rgx page items) =
        ((items.filter (qualifies rgx)).map
          (fun p => (extract_linked_issue_numbers p.body rgx).count m)).sum ∧
      issueFetchCount m (processPage savePages rgx page items) =
        ((items.filter (qualifies rgx)).map
          (fun p => (extract_linked_issue_numbers p.body rgx).count m)).sum := by
  have hfst : (filterPass savePages rgx items).1 =
      (items.filter (qualifies rgx)).map
        (fun p => (p.number, extract_linked_issue_numbers p.body rgx)) := by
    unfold filterPass
    rw [foldl_filterStep_fst_nodup savePages rgx items [] [] (by simp) hnd]
    simp
  have htrace : processPage savePages rgx page items =
      (if savePages then [Event.savePage page (filterPass savePages rgx items).2]
       else []) ++ detailEvents (filterPass savePages rgx items).1 := rfl
  refine ⟨hfst, ?_, ?_⟩
  · rw [htrace, hfst]
    rfl
  · intro m
    have hopt : ∀ e ∈ (if savePages then
        [Event.savePage page (filterPass savePages rgx items).2] else []),
        e ≠ Event.saveIssue m ∧ e ≠ Event.fetchIssue m := by
      cases savePages <;> simp
    constructor
    · rw [show issueSaveCount m (processPage savePages rgx page items) =
          (detailEvents (filterPass savePages rgx items).1).count
            (Event.saveIssue m) from by
        rw [show processPage savePages rgx page items =
            (if savePages then
              [Event.savePage page (filterPass savePages rgx items).2]
             else []) ++ detailEvents (filterPass savePages rgx items).1 from htrace]
        unfold issueSaveCount
        rw [List.count_append]
        cases savePages <;> simp]
      rw [count_detailEvents_save, hfst, List.map_map]
      rfl
    · rw [show issueFetchCount m (processPage savePages rgx page items) =
          (detailEvents (filterPass savePages rgx items).1).count
            (Event.fetchIssue m) from by
        rw [show processPage savePages rgx page items =
            (if savePages then
              [Event.savePage page (filterPass savePages rgx items).2]
             else []) ++ detailEvents (filterPass savePages rgx items).1 from htrace]
        unfold issueFetchCount
        rw [List.count_append]
        cases savePages <;> simp]
      rw [count_detailEvents_fetch, hfst, List.map_map]
      rfl

/-- Witness for C6: a concrete page with two qualifying pulls both linking
issue 5, with distinct pull numbers, on which the counted issue saves equal
the per-pull occurrence sum (here 2: one save per linking pull). -/
theorem crawl_detail_order_witness :
    (([⟨1, some "fixes #5", some "x", none⟩,
       ⟨2, some "closes #5", some "y", none⟩] : List PullItem).map
        PullItem.number).Nodup ∧
    issueSaveCount 5 (processPage false (make_linked_issues_regex "o" "r") 1
        [⟨1, some "fixes #5", some "x", none⟩,
         ⟨2, some "closes #5", some "y", none⟩]) =
      ((([⟨1, some "fixes #5", some "x", none⟩,
          ⟨2, some "closes #5", some "y", none⟩] : List PullItem).filter
          (qualifies (make_linked_issues_regex "o" "r"))).map
        (fun p => (extract_linked_issue_numbers p.body
          (make_linked_issues_regex "o" "r")).count 5)).sum :=
  ⟨by decide,
    ((crawl_detail_order false (make_linked_issues_regex "o" "r") 1
      [⟨1, some "fixes #5", some "x", none⟩,
       ⟨2, some "closes #5", some "y", none⟩] (by decide)).2.2 5).1⟩


theorem fetchedPages_issueEvents :
    ∀ issues : List Nat,
      fetchedPages (issues.flatMap (fun j =>
        [Event.fetchIssue j, Event.saveIssue j])) = [] := by
  intro issues
  induction issues with
  | nil => rfl
  | cons j js ih => simpa [fetchedPages] using ih

theorem fetchedPages_detailEvents :
    ∀ d : List (Nat × List Nat), fetchedPages (detailEvents d) = [] := by
  intro d
  induction d with
  | nil => rfl
  | cons q d ih =>
    have h1 := fetchedPages_issueEvents q.2
    simp only [detailEvents, fetchedPages, List.flatMap_cons,
      List.filterMap_cons, List.filterMap_append] at h1 ih ⊢
    rw [h1, ih]
    rfl

theorem fetchedPages_processPage (savePages : Bool) (rgx : LinkedIssuesRegex)
    (page : Nat) (items : List PullItem) :
    fetchedPages (processPage savePages rgx page items) = [] := by
  have h1 := fetchedPages_detailEvents (filterPass savePages rgx items).1
  show fetchedPages
    ((if savePages then
        [Event.savePage page (filterPass savePages rgx items).2] else []) ++
      detailEvents (filterPass savePages rgx items).1) = []
  cases savePages <;>
    simp only [fetchedPages, List.filterMap_append, List.filterMap_cons,
      List.filterMap_nil, if_pos, if_neg, List.nil_append] at h1 ⊢ <;>
    simp_all [fetchedPages]

theorem no_fetchPage_processPage {savePages : Bool} {rgx : LinkedIssuesRegex}
    {page n : Nat} {items its : List PullItem}
    (h : Event.fetchPage n its ∈ processPage savePages rgx page items) :
    False := by
  have : n ∈ fetchedPages (processPage savePages rgx page items) := by
    unfold fetchedPages
    rw [List.mem_filterMap]
    exact ⟨Event.fetchPage n its, h, rfl⟩
  rw [fetchedPages_processPage] at this
  simp at this

theorem crawlLoop_fetches_first (perPage : Nat) (savePages : Bool)
    (rgx : LinkedIssuesRegex) (pages : Nat → List PullItem)
    (sigint : Nat → Bool) (fuel page k ni np : Nat) (hfuel : 1 ≤ fuel)
    (hsig : sigint k = false) :
    Event.fetchPage page (pages page) ∈
      (crawlLoop perPage savePages rgx pages sigint fuel page k ni np).2 := by
  cases fuel with
  | zero => omega
  | succ fuel =>
    simp only [crawlLoop, hsig, Bool.false_eq_true, if_neg, if_false]
    split <;> simp

theorem crawlLoop_terminated_iff (perPage : Nat) (savePages : Bool)
    (rgx : LinkedIssuesRegex) (pages : Nat → List PullItem)
    (sigint : Nat → Bool) :
    ∀ fuel page k ni np,
      (∃ i p, (crawlLoop perPage savePages rgx pages sigint
          fuel page k ni np).1 = .terminated i p) ↔
      (∃ n items, Event.fetchPage n items ∈
          (crawlLoop perPage savePages rgx pages sigint fuel page k ni np).2 ∧
        items.length < perPage) := by
  intro fuel
  induction fuel with
  | zero =>
    intro page k ni np
    constructor
    · rintro ⟨i, p, h⟩
      exact absurd h (by simp [crawlLoop])
    · rintro ⟨n, items, h, _⟩
      exact absurd h (by simp [crawlLoop])
  | succ fuel ih =>
    intro page k ni np
    by_cases hsig : sigint k = true
    · constructor
      · rintro ⟨i, p, h⟩
        rw [show crawlLoop perPage savePages rgx pages sigint (fuel + 1)
            page k ni np = (.interrupted, []) from by
          simp [crawlLoop, hsig]] at h
        exact absurd h (by simp)
      · rintro ⟨n, items, h, _⟩
        rw [show crawlLoop perPage savePages rgx pages sigint (fuel + 1)
            page k ni np = (.interrupted, []) from by
          simp [crawlLoop, hsig]] at h
        exact absurd h (by simp)
    · rw [Bool.not_eq_true] at hsig
      by_cases hsmall : (pages page).length < perPage
      · rw [show crawlLoop perPage savePages rgx pages sigint (fuel + 1)
            page k ni np =
            (.terminated
              (ni + (((filterPass savePages rgx (pages page)).1.map
                (fun q => q.2.length)).sum))
              (np + (filterPass savePages rgx (pages page)).1.length),
             Event.fetchPage page (pages page) ::
               processPage savePages rgx page (pages page)) from by
          simp [crawlLoop, hsig, hsmall]]
        constructor
        · intro _
          exact ⟨page, pages page, by simp, hsmall⟩
        · intro _
          exact ⟨_, _, rfl⟩
      · rw [show crawlLoop perPage savePages rgx pages sigint (fuel + 1)
            page k ni np =
            ((crawlLoop perPage savePages rgx pages sigint fuel (page + 1)
                (k + 1)
                (ni + (((filterPass savePages rgx (pages page)).1.map
                  (fun q => q.2.length)).sum))
                (np + (filterPass savePages rgx (pages page)).1.length)).1,
             (Event.fetchPage page (pages page) ::
               processPage savePages rgx page (pages page)) ++
              (crawlLoop perPage savePages rgx pages sigint fuel (page + 1)
                (k + 1)
                (ni + (((filterPass savePages rgx (pages page)).1.map
                  (fun q => q.2.length)).sum))
                (np + (filterPass savePages rgx (pages page)).1.length)).2) from by
          simp [crawlLoop, hsig, hsmall]]
        constructor
        · rintro ⟨i, p, h⟩
          obtain ⟨n, items, hmem, hlt⟩ := (ih (page + 1) (k + 1) _ _).mp ⟨i, p, h⟩
          exact ⟨n, items, by simp [hmem], hlt⟩
        · rintro ⟨n, items, hmem, hlt⟩
          simp only [List.mem_append, List.mem_cons] at hmem
          rcases hmem with (heq | hproc) | hrec
          · obtain ⟨h1, h2⟩ := Event.fetchPage.inj heq
            subst h2
            omega
          · exact absurd hproc (fun hc => no_fetchPage_processPage hc)
          · exact (ih (page + 1) (k + 1) _ _).mpr ⟨n, items, hrec, hlt⟩

theorem crawlLoop_pages_consecutive (perPage : Nat) (savePages : Bool)
    (rgx : LinkedIssuesRegex) (pages : Nat → List PullItem)
    (sigint : Nat → Bool) :
    ∀ fuel page k ni np,
      ∃ m, fetchedPages (crawlLoop perPage savePages rgx pages sigint
        fuel page k ni np).2 = List.range' page m := by
  intro fuel
  induction fuel with
  | zero => intro page k ni np; exact ⟨0, rfl⟩
  | succ fuel ih =>
    intro page k ni np
    by_cases hsig : sigint k = true
    · refine ⟨0, ?_⟩
      rw [show crawlLoop perPage savePages rgx pages sigint (fuel + 1)
          page k ni np = (.interrupted, []) from by simp [crawlLoop, hsig]]
      rfl
    · rw [Bool.not_eq_true] at hsig
      by_cases hsmall : (pages page).length < perPage
      · refine ⟨1, ?_⟩
        rw [show (crawlLoop perPage savePages rgx pages sigint (fuel + 1)
            page k ni np).2 =
            Event.fetchPage page (pages page) ::
              processPage savePages rgx page (pages page) from by
          simp [crawlLoop, hsig, hsmall]]
        have := fetchedPages_processPage savePages rgx page (pages page)
        simp only [fetchedPages, List.filterMap_cons] at this ⊢
        rw [this]
        rfl
      · obtain ⟨m, hm⟩ := ih (page + 1) (k + 1)
          (ni + (((filterPass savePages rgx (pages page)).1.map
            (fun q => q.2.length)).sum))
          (np + (filterPass savePages rgx (pages page)).1.length)
        refine ⟨m + 1, ?_⟩
        rw [show (crawlLoop perPage savePages rgx pages sigint (fuel + 1)
            page k ni np).2 =
            (Event.fetchPage page (pages page) ::
              processPage savePages rgx page (pages page)) ++
              (crawlLoop perPage savePages rgx pages sigint fuel (page + 1)
                (k + 1)
                (ni + (((filterPass savePages rgx (pages page)).1.map
                  (fun q => q.2.length)).sum))
                (np + (filterPass savePages rgx (pages page)).1.length)).2 from by
          simp [crawlLoop, hsig, hsmall]]
        have hpp := fetchedPages_processPage savePages rgx page (pages page)
        simp only [fetchedPages, List.filterMap_cons, List.filterMap_append]
          at hpp hm ⊢
        rw [hpp, hm, List.range'_succ]
        rfl

theorem crawlLoop_next_page (perPage : Nat) (savePages : Bool)
    (rgx : LinkedIssuesRegex) (pages : Nat → List PullItem)
    (sigint : Nat → Bool) (hsig : ∀ j, sigint j = false) :
    ∀ fuel page k ni np,
      (crawlLoop perPage savePages rgx pages sigint
        fuel page k ni np).1 ≠ .outOfFuel →
      ∀ n items, Event.fetchPage n items ∈
          (crawlLoop perPage savePages rgx pages sigint fuel page k ni np).2 →
        perPage ≤ items.length →
        ∃ its, Event.fetchPage (n + 1) its ∈
          (crawlLoop perPage savePages rgx pages sigint fuel page k ni np).2 := by
  intro fuel
  induction fuel with
  | zero =>
    intro page k ni np hof
    exact absurd rfl hof
  | succ fuel ih =>
    intro page k ni np hof n items hmem hbig
    rw [show crawlLoop perPage savePages rgx pages sigint (fuel + 1)
        page k ni np =
        (if (pages page).length < perPage then
          (CrawlResult.terminated
            (ni + (((filterPass savePages rgx (pages page)).1.map
              (fun q => q.2.length)).sum))
            (np + (filterPass savePages rgx (pages page)).1.length),
           Event.fetchPage page (pages page) ::
             processPage savePages rgx page (pages page))
        else
          ((crawlLoop perPage savePages rgx pages sigint fuel (page + 1) (k + 1)
              (ni + (((filterPass savePages rgx (pages page)).1.map
                (fun q => q.2.length)).sum))
              (np + (filterPass savePages rgx (pages page)).1.length)).1,
           (Event.fetchPage page (pages page) ::
             processPage savePages rgx page (pages page)) ++
            (crawlLoop perPage savePages rgx pages sigint fuel (page + 1) (k + 1)
              (ni + (((filterPass savePages rgx (pages page)).1.map
                (fun q => q.2.length)).sum))
              (np + (filterPass savePages rgx (pages page)).1.length)).2)) from by
      simp [crawlLoop, hsig k]] at hof hmem ⊢
    by_cases hsmall : (pages page).length < perPage
    · rw [if_pos hsmall] at hmem
      simp only [List.mem_cons] at hmem
      rcases hmem with heq | hproc
      · obtain ⟨h1, h2⟩ := Event.fetchPage.inj heq
        subst h2
        omega
      · exact absurd hproc (fun hc => no_fetchPage_processPage hc)
    · rw [if_neg hsmall] at hmem hof ⊢
      have hof2 : (crawlLoop perPage savePages rgx pages sigint fuel (page + 1)
          (k + 1)
          (ni + (((filterPass savePages rgx (pages page)).1.map
            (fun q => q.2.length)).sum))
          (np + (filterPass savePages rgx (pages page)).1.length)).1 ≠
          CrawlResult.outOfFuel := hof
      have hfuel1 : 1 ≤ fuel := by
        cases fuel with
        | zero => exact absurd rfl hof2
        | succ f => omega
      simp only [List.mem_append, List.mem_cons] at hmem
      rcases hmem with (heq | hproc) | hrec
      · obtain ⟨h1, h2⟩ := Event.fetchPage.inj heq
        rw [h1]
        refine ⟨pages (page + 1), ?_⟩
        simp only [List.mem_append]
        exact Or.inr (crawlLoop_fetches_first perPage savePages rgx pages sigint
          fuel (page + 1) (k + 1) _ _ hfuel1 (hsig (k + 1)))
      · exact absurd hproc (fun hc => no_fetchPage_processPage hc)
      · obtain ⟨its, hits⟩ := ih (page + 1) (k + 1) _ _ hof2 n items hrec hbig
        exact ⟨its, by simp [hits]⟩

/-- C5 amended: the page loop returns normally — the line 174 return with its
totals — exactly when some fetched page has fewer than `per_page` items (the
return fires at that page even if the interrupt flag is set, and an early
interrupt exit means every fetched page was full); the fetched page numbers
are consecutive from the starting page, each fetch incrementing the page
number by exactly 1, so no page is revisited within one run; and when no
interrupt is delivered (and the model does not run out of fuel), a full
fetched page is always followed by a fetch of the next page number. -/
theorem crawl_page_loop (perPage : Nat) (savePages : Bool)
    (rgx : LinkedIssuesRegex) (pages : Nat → List PullItem)
    (sigint : Nat → Bool) (fuel page k ni np : Nat) :
    ((∃ i p, (crawlLoop perPage savePages rgx pages sigint
        fuel page k ni np).1 = .terminated i p) ↔
      (∃ n items, Event.fetchPage n items ∈
          (crawlLoop perPage savePages rgx pages sigint fuel page k ni np).2 ∧
        items.length < perPage)) ∧
    (∃ m, fetchedPages (crawlLoop perPage savePages rgx pages sigint
        fuel page k ni np).2 = List.range' page m) ∧
    ((∀ j, sigint j = false) →
      (crawlLoop perPage savePages rgx pages sigint
        fuel page k ni np).1 ≠ .outOfFuel →
      ∀ n items, Event.fetchPage n items ∈
          (crawlLoop perPage savePages rgx pages sigint fuel page k ni np).2 →
        perPage ≤ items.length →
        ∃ its, Event.fetchPage (n + 1) its ∈
          (crawlLoop perPage savePages rgx pages sigint fuel page k ni np).2) :=
  ⟨crawlLoop_terminated_iff perPage savePages rgx pages sigint fuel page k ni np,
   crawlLoop_pages_consecutive perPage savePages rgx pages sigint fuel page k ni np,
   fun hs => crawlLoop_next_page perPage savePages rgx pages sigint hs
     fuel page k ni np⟩

/-- Witness for C5: a run with `per_page = 1`, no interrupts, a full first
page and an empty second page; the full page 1 is followed by a fetch of
page 2. -/
theorem crawl_page_loop_witness :
    ∃ its, Event.fetchPage 2 its ∈
      (crawlLoop 1 false (make_linked_issues_regex "o" "r")
        (fun n => if n = 1 then [⟨1, none, none, none⟩] else [])
        (fun _ => false) 5 1 0 0 0).2 :=
  (crawl_page_loop 1 false (make_linked_issues_regex "o" "r")
      (fun n => if n = 1 then [⟨1, none, none, none⟩] else [])
      (fun _ => false) 5 1 0 0 0).2.2 (fun _ => rfl) (by decide)
    1 [⟨1, none, none, none⟩] (by decide) (by decide)

/-- C5 counterexample: with `per_page = 1`, every page full, and a SIGINT
delivered during the first page, the loop exits at the next boundary check:
page 1 was fetched with `per_page` items, yet page 2 is never fetched, so
"otherwise the page number is incremented by exactly 1 and the next page is
fetched" fails as stated. -/
theorem crawl_page_loop_next_refuted :
    ¬ ((Event.fetchPage 1 [⟨1, none, none, none⟩] ∈
        (crawlLoop 1 false (make_linked_issues_regex "o" "r")
          (fun _ => [⟨1, none, none, none⟩])
          (fun j => decide (1 ≤ j)) 5 1 0 0 0).2 ∧
        1 ≤ ([⟨1, none, none, none⟩] : List PullItem).length) →
      2 ∈ fetchedPages (crawlLoop 1 false (make_linked_issues_regex "o" "r")
        (fun _ => [⟨1, none, none, none⟩])
        (fun j => decide (1 ≤ j)) 5 1 0 0 0).2) := by
  decide


/-- C10: line 148 sets `self._interrupted = False` at the start of every
`crawl` call, so a crawl's outcome never depends on the flag state a previous
crawl left behind: the per-repository loop of `main` yields for every listed
repository exactly the result of a flag-clear crawl of that repository,
whatever interrupts were delivered while earlier repositories were crawled;
and a repository whose own crawl sees no SIGINT by its first boundary check
does fetch its starting page. -/
theorem crawl_interrupt_isolation (perPage : Nat) (savePages : Bool)
    (fuel : Nat) :
    (∀ (ts : List RepoTask) (flag : Bool),
      runRepos perPage savePages fuel ts flag =
        ts.map (fun t => crawl perPage savePages t.owner t.repo t.pages
          t.sigint t.startPage fuel false)) ∧
    (∀ t : RepoTask, t.sigint 0 = false → 1 ≤ fuel →
      Event.fetchPage t.startPage (t.pages t.startPage) ∈
        (crawl perPage savePages t.owner t.repo t.pages t.sigint
          t.startPage fuel false).2) := by
  constructor
  · intro ts
    induction ts with
    | nil => intro flag; rfl
    | cons t ts ih =>
      intro flag
      show crawl perPage savePages t.owner t.repo t.pages t.sigint
          t.startPage fuel flag ::
        runRepos perPage savePages fuel ts _ = _
      rw [show crawl perPage savePages t.owner t.repo t.pages t.sigint
          t.startPage fuel flag =
          crawl perPage savePages t.owner t.repo t.pages t.sigint
            t.startPage fuel false from rfl, ih _]
      rfl
  · intro t hsig hfuel
    exact crawlLoop_fetches_first perPage savePages
      (make_linked_issues_regex t.owner t.repo) t.pages t.sigint
      fuel t.startPage 0 0 0 hfuel hsig

/-- Witness for C10: a single concrete repository task with no interrupts
fetches its starting page from a flag-clear crawl. -/
theorem crawl_interrupt_isolation_witness :
    Event.fetchPage 1 [] ∈
      (crawl 1 false "o" "r" (fun _ => []) (fun _ => false) 1 3 false).2 :=
  (crawl_interrupt_isolation 1 false 3).2
    ⟨"o", "r", fun _ => [], fun _ => false, 1⟩ rfl (by decide)


/-- A rate-limited failure response: not ok, remaining quota 0, reset at `t`,
no parsable body. -/
def rlResp (t : Int) : HttpOutcome := HttpOutcome.resp false (some 0) (some t) none

/-- A successful response whose body parses to `j`. -/
def okResp (j : Json) : HttpOutcome := HttpOutcome.resp true none none (some j)

/-- The sleeps a run of consecutive rate-limit responses performs: the first
waits `reset - now + 1` seconds, landing the clock at `reset + 1`, and so on. -/
def rlWaits : List Int → Int → List Sleep
  | [], _ => []
  | t :: ts, now => Sleep.rateLimitWait (t - now + 1) :: rlWaits ts (t + 1)

/-- The clock after waiting out a run of rate-limit resets. -/
def rlEndTime : List Int → Int → Int
  | [], now => now
  | t :: ts, _ => rlEndTime ts (t + 1)

theorem tryToGet_rl_step (rest : List HttpOutcome) (now t : Int)
    (json0 : Option Json) :
    tryToGet (HttpOutcome.resp false (some 0) (some t) json0 :: rest) now =
      ⟨(tryToGet rest (t + 1)).result, (tryToGet rest (t + 1)).rest,
       (tryToGet rest (t + 1)).now,
       Sleep.rateLimitWait (t - now + 1) :: (tryToGet rest (t + 1)).sleeps⟩ := by
  have harith : now + (t - now + 1) = t + 1 := by ring
  simp only [tryToGet, Bool.false_eq_true, if_false,
    show ((0 : Int) < 1) = True from by norm_num, if_true]
  rw [harith]

theorem tryToGet_rl_stream (j : Json) (hj : isErrorEnvelope j = false) :
    ∀ (resets : List Int) (now : Int),
      tryToGet (resets.map rlResp ++ [okResp j]) now =
        ⟨some j, [], rlEndTime resets now, rlWaits resets now⟩ := by
  intro resets
  induction resets with
  | nil =>
    intro now
    simp only [List.map_nil, List.nil_append, okResp, tryToGet, if_pos, hj,
      Bool.false_eq_true, if_false]
    rfl
  | cons t ts ih =>
    intro now
    rw [List.map_cons, List.cons_append, show rlResp t =
      HttpOutcome.resp false (some 0) (some t) none from rfl, tryToGet_rl_step]
    rw [ih (t + 1)]
    rfl

theorem getLoop_of_success (url : String) (maxT w tries : Nat)
    (stream : List HttpOutcome) (now : Int) (j : Json)
    (h : (tryToGet stream now).result = some j) :
    getLoop url maxT w tries stream now = (.ok j, (tryToGet stream now).sleeps) := by
  rw [getLoop.eq_def]
  split
  · rename_i j2 r2 n2 sl2 heq
    rw [heq] at h
    simp only at h
    rw [heq]
    simp only [Option.some.injEq] at h
    rw [h]
  · rename_i r2 n2 sl2 heq
    rw [heq] at h
    simp at h

/-- C3: a failed response that carries a remaining-quota header equal to zero
together with a reset-timestamp header makes `_try_to_get` sleep
`reset - now + 1` seconds and re-issue the same request on the rest of the
stream with the clock at `reset + 1`, producing no failed try; such responses
are never counted toward the retry budget: even with `max_request_tries = 1`
— where a single counted failure would already be fatal — any number of
consecutive rate-limit responses is waited out and the following successful
response is returned, with exactly the rate-limit sleeps and no retry sleep. -/
theorem rate_limit_wait_uncounted (url : String) (w : Nat) :
    (∀ (rest : List HttpOutcome) (now t : Int) (json0 : Option Json),
      tryToGet (HttpOutcome.resp false (some 0) (some t) json0 :: rest) now =
        ⟨(tryToGet rest (t + 1)).result, (tryToGet rest (t + 1)).rest,
         (tryToGet rest (t + 1)).now,
         Sleep.rateLimitWait (t - now + 1) :: (tryToGet rest (t + 1)).sleeps⟩) ∧
    (∀ (j : Json), isErrorEnvelope j = false →
      ∀ (resets : List Int) (now : Int),
        get url 1 w (resets.map rlResp ++ [okResp j]) now =
          (.ok j, rlWaits resets now)) := by
  constructor
  · exact tryToGet_rl_step
  · intro j hj resets now
    unfold get
    rw [getLoop_of_success url 1 w 0 _ now j
      (by rw [tryToGet_rl_stream j hj resets now]),
      tryToGet_rl_stream j hj resets now]

/-- Witness for C3: three rate-limit responses with resets 100, 200, 300 are
waited out under `max_request_tries = 1` and the success is returned. -/
theorem rate_limit_wait_uncounted_witness :
    get "u" 1 7 ([100, 200, 300].map rlResp ++ [okResp (Json.val 5)]) 10 =
      (.ok (Json.val 5), rlWaits [100, 200, 300] 10) :=
  (rate_limit_wait_uncounted "u" 7).2 (Json.val 5) rfl [100, 200, 300] 10


/-- An outcome `_try_to_get` turns into a plain `None` failure (the ordinary
retry path): a raised transport call, a non-ok response outside the
rate-limit branch, an unparsable body, or an API error envelope. -/
def ordinaryFailure : HttpOutcome → Bool
  | .exn => true
  | .resp ok remaining reset json =>
    if ok then
      match json with
      | none => true
      | some j => isErrorEnvelope j
    else
      match remaining, reset with
      | some q, some _ => decide (1 ≤ q)
      | _, _ => true

theorem tryToGet_ordinary {o : HttpOutcome} (h : ordinaryFailure o = true)
    (rest : List HttpOutcome) (now : Int) :
    tryToGet (o :: rest) now = ⟨none, rest, now, []⟩ := by
  match o with
  | .exn => rfl
  | .resp ok remaining reset json =>
    simp only [ordinaryFailure] at h
    simp only [tryToGet]
    split
    · rename_i hok
      rw [if_pos hok] at h
      match json with
      | none => rfl
      | some j =>
        simp only at h
        simp [h]
    · rename_i hok
      rw [if_neg hok] at h
      match remaining, reset with
      | some q, some t =>
        simp only [decide_eq_true_eq] at h
        simp only
        rw [if_neg (by omega)]
      | some q, none => rfl
      | none, some t => rfl
      | none, none => rfl

theorem getLoop_ordinary_failures (url : String) (maxT w : Nat) :
    ∀ (fails : List HttpOutcome), fails ≠ [] →
      (∀ o ∈ fails, ordinaryFailure o = true) →
      ∀ (tries : Nat), tries + fails.length = maxT →
      ∀ (rest : List HttpOutcome) (now : Int),
      getLoop url maxT w tries (fails ++ rest) now =
        (.error (.tooManyRequestFailures url maxT),
         List.replicate (fails.length - 1) (Sleep.retryWait w)) := by
  intro fails
  induction fails with
  | nil => intro h; exact absurd rfl h
  | cons o fails ih =>
    intro _ hord tries hsum rest now
    rw [List.cons_append, getLoop.eq_def]
    split
    · rename_i j2 r2 n2 sl2 heq
      rw [tryToGet_ordinary (hord o (by simp)) (fails ++ rest) now] at heq
      exact absurd heq (by simp)
    · rename_i r2 n2 sl2 heq
      rw [tryToGet_ordinary (hord o (by simp)) (fails ++ rest) now] at heq
      obtain ⟨rfl, rfl, rfl⟩ : fails ++ rest = r2 ∧ now = n2 ∧ ([] : List Sleep) = sl2 := by
        cases heq
        exact ⟨rfl, rfl, rfl⟩
      simp only [List.length_cons] at hsum
      by_cases hlast : fails = []
      · subst hlast
        rw [if_pos (by simp at hsum; omega)]
        simp only [List.length_cons, List.length_nil]
        have : tries + 1 = maxT := by simpa using hsum
        rw [this]
        simp
      · rw [if_neg (by
          have : 1 ≤ fails.length := List.length_pos.mpr hlast
          omega)]
        rw [ih hlast (fun o ho => hord o (by simp [ho])) (tries + 1)
          (by omega) rest (now + w)]
        have : 1 ≤ fails.length := List.length_pos.mpr hlast
        simp only [List.nil_append, List.length_cons]
        rw [show (fails.length + 1 - 1) = (fails.length - 1) + 1 from by omega]
        rw [List.replicate_succ]

theorem tryToGet_some_mem :
    ∀ (s : List HttpOutcome) (now : Int) (j : Json),
      (tryToGet s now).result = some j →
      (∃ remaining reset, HttpOutcome.resp true remaining reset (some j) ∈ s) ∧
        isErrorEnvelope j = false := by
  intro s
  induction s with
  | nil => intro now j h; simp [tryToGet] at h
  | cons o os ih =>
    intro now j h
    match o with
    | .exn => simp [tryToGet] at h
    | .resp ok remaining reset json =>
      simp only [tryToGet] at h
      split at h
      · rename_i hok
        subst hok
        match json with
        | none => simp at h
        | some j2 =>
          by_cases hj2 : isErrorEnvelope j2 = true
          · simp [hj2] at h
          · rw [Bool.not_eq_true] at hj2
            simp only [hj2, Bool.false_eq_true, if_false,
              Option.some.injEq] at h
            subst h
            refine ⟨⟨remaining, reset, ?_⟩, hj2⟩
            simp
      · split at h
        · rename_i q t hq
          split at h
          · obtain ⟨⟨rm, rs, hmem⟩, hj⟩ := ih _ j h
            exact ⟨⟨rm, rs, by simp [hmem]⟩, hj⟩
          · simp at h
        · simp at h

theorem getLoop_ok_provenance (url : String) (maxT w : Nat) :
    ∀ (n : Nat) (tries : Nat) (stream : List HttpOutcome) (now : Int) (j : Json),
      stream.length + (maxT - tries) ≤ n →
      (getLoop url maxT w tries stream now).1 = .ok j →
      (∃ remaining reset, HttpOutcome.resp true remaining reset (some j) ∈ stream) ∧
        isErrorEnvelope j = false := by
  intro n
  induction n with
  | zero =>
    intro tries stream now j hn h
    have hstream : stream = [] := by
      cases stream with
      | nil => rfl
      | cons a as => simp at hn
    subst hstream
    have hmt : maxT ≤ tries + 1 := by
      simp only [List.length_nil, Nat.zero_add] at hn
      omega
    rw [getLoop.eq_def] at h
    split at h
    · rename_i j2 r2 n2 sl2 heq
      have hnil : tryToGet ([] : List HttpOutcome) now = ⟨none, [], now, []⟩ := rfl
      rw [hnil] at heq
      simp at heq
    · rw [if_pos hmt] at h
      simp at h
  | succ n ihn =>
    intro tries stream now j hn h
    rw [getLoop.eq_def] at h
    split at h
    · rename_i j2 r2 n2 sl2 heq
      simp only at h
      injection h with hjj
      subst hjj
      exact tryToGet_some_mem stream now _ (by rw [heq])
    · rename_i r2 n2 sl2 heq
      split at h
      · simp at h
      · rename_i hlt
        simp only at h
        have hr2 : r2 = (tryToGet stream now).rest := by rw [heq]
        have hmeasure : r2.length + (maxT - (tries + 1)) ≤ n := by
          cases stream with
          | nil =>
            have hnil : tryToGet ([] : List HttpOutcome) now =
                ⟨none, [], now, []⟩ := rfl
            rw [hnil] at hr2
            subst hr2
            simp only [List.length_nil, Nat.zero_add] at hn ⊢
            omega
          | cons a as =>
            have hlen := tryToGet_rest_lt a as now
            rw [← hr2] at hlen
            simp only [List.length_cons] at hn hlen
            omega
        obtain ⟨⟨rm, rs, hmem⟩, hj⟩ := ihn (tries + 1) r2 (n2 + w) j hmeasure h
        refine ⟨⟨rm, rs, ?_⟩, hj⟩
        have hsuffix := tryToGet_rest_suffix stream now
        rw [← hr2] at hsuffix
        exact hsuffix.subset hmem

/-- C4: with `max_request_tries ≥ 1`, a stream beginning with exactly
`max_request_tries` ordinary (non-rate-limit) failures makes `_get` raise
`TooManyRequestFailures` carrying the URL and the try count, after sleeping
the fixed `request_retry_wait_secs` once per failure strictly before the
counter reaches the bound (`max_request_tries - 1` retry sleeps); and
whenever `_get` returns a value, that value is the fully parsed JSON of a
successful, non-envelope response of the stream — never a partial result. -/
theorem request_failures_fatal_full_json (url : String) (maxT w : Nat)
    (hmax : 1 ≤ maxT) :
    (∀ (fails rest : List HttpOutcome) (now : Int),
      (∀ o ∈ fails, ordinaryFailure o = true) → fails.length = maxT →
      get url maxT w (fails ++ rest) now =
        (.error (.tooManyRequestFailures url maxT),
         List.replicate (maxT - 1) (Sleep.retryWait w))) ∧
    (∀ (stream : List HttpOutcome) (now : Int) (j : Json),
      (get url maxT w stream now).1 = .ok j →
      (∃ remaining reset,
        HttpOutcome.resp true remaining reset (some j) ∈ stream) ∧
        isErrorEnvelope j = false) := by
  constructor
  · intro fails rest now hord hlen
    unfold get
    rw [getLoop_ordinary_failures url maxT w fails
      (by intro hc; rw [hc] at hlen; simp at hlen; omega) hord 0
      (by omega) rest now, hlen]
  · intro stream now j h
    exact getLoop_ok_provenance url maxT w
      (stream.length + (maxT - 0)) 0 stream now j (by omega) h

/-- Witness for C4: two consecutive transport exceptions under
`max_request_tries = 2` raise the fatal error carrying the URL and try count
2, with one retry sleep of the configured 3 seconds. -/
theorem request_failures_fatal_witness :
    get "u" 2 3 [HttpOutcome.exn, HttpOutcome.exn] 0 =
      (.error (.tooManyRequestFailures "u" 2), [Sleep.retryWait 3]) := by
  have h := (request_failures_fatal_full_json "u" 2 3 (by omega)).1
    [HttpOutcome.exn, HttpOutcome.exn] [] 0 (by decide) (by decide)
  simpa using h


/-- The rows `write_dataset` emits for one `(owner, repo)` pair with no row
limit: pull files in ascending number order, each pull's sorted issue list
mapped to rows. -/
def pairRows (p : String × RepoDir) : List Row :=
  (sorted_pull_files p.2.2).flatMap (fun pf =>
    (pf.linked_issue_numbers.mergeSort (fun a b => decide (a ≤ b))).map
      (fun m => (p.1, p.2.1, pf.number, m)))

theorem writeIssueRows_nolimit (o r : String) (pn : Nat) :
    ∀ (issues : List Nat) (total : Nat),
      writeIssueRows o r pn issues total 0 =
        (issues.map (fun m => (o, r, pn, m)), total + issues.length, false) := by
  intro issues
  induction issues with
  | nil => intro total; simp [writeIssueRows]
  | cons m ms ih =>
    intro total
    simp only [writeIssueRows, Nat.succ_ne_zero, if_false, ih (total + 1),
      List.map_cons, List.length_cons, Prod.mk.injEq]
    exact ⟨trivial, by omega, trivial⟩

theorem writePullRows_nolimit (o r : String) :
    ∀ (pfs : List PullFile) (total : Nat),
      writePullRows o r pfs total 0 =
        (pfs.flatMap (fun pf =>
          (pf.linked_issue_numbers.mergeSort (fun a b => decide (a ≤ b))).map
            (fun m => (o, r, pf.number, m))),
         total + (pfs.map (fun pf => pf.linked_issue_numbers.length)).sum,
         false) := by
  intro pfs
  induction pfs with
  | nil => intro total; simp [writePullRows]
  | cons pf pfs ih =>
    intro total
    simp only [writePullRows, writeIssueRows_nolimit, if_false,
      List.flatMap_cons, List.map_cons, List.sum_cons, ih, Prod.mk.injEq,
      List.length_mergeSort, Bool.false_eq_true]
    refine ⟨trivial, by omega, trivial⟩

theorem writePairRows_nolimit :
    ∀ (ps : List (String × RepoDir)) (total : Nat),
      ∃ t, writePairRows ps total 0 = (ps.flatMap pairRows, t, false) := by
  intro ps
  induction ps with
  | nil => intro total; exact ⟨total, rfl⟩
  | cons p ps ih =>
    intro total
    obtain ⟨t2, ht2⟩ := ih
      (total + ((sorted_pull_files p.2.2).map
        (fun pf => pf.linked_issue_numbers.length)).sum)
    refine ⟨t2, ?_⟩
    simp [writePairRows, writePullRows_nolimit, ht2, List.flatMap_cons,
      pairRows]

/-- `write_dataset` with the default `limit_rows = 0` emits exactly the rows
of each sorted `(owner, repo)` pair in order. -/
theorem write_dataset_eq (tree : SrcTree) :
    write_dataset tree 0 = (sorted_owner_repo_pairs tree).flatMap pairRows := by
  obtain ⟨t, ht⟩ := writePairRows_nolimit (sorted_owner_repo_pairs tree) 0
  unfold write_dataset
  rw [ht]

theorem write_dataset_perm (tree : SrcTree) :
    (write_dataset tree 0).Perm
      (tree.flatMap (fun o => o.2.flatMap (fun r =>
        r.2.flatMap (fun pf => pf.linked_issue_numbers.map
          (fun m => (o.1, r.1, pf.number, m)))))) := by
  rw [write_dataset_eq]
  unfold sorted_owner_repo_pairs
  rw [List.flatMap_assoc]
  have hstep : ∀ o : String × List RepoDir,
      ((o.2.mergeSort (fun a b => decide (a.1 ≤ b.1))).map
        (fun r => (o.1, r))).flatMap pairRows =
      (o.2.mergeSort (fun a b => decide (a.1 ≤ b.1))).flatMap
        (fun r => pairRows (o.1, r)) := by
    intro o
    rw [List.flatMap_map]
  have hpair : ∀ (o1 : String) (r : RepoDir),
      (pairRows (o1, r)).Perm
        (r.2.flatMap (fun pf => pf.linked_issue_numbers.map
          (fun m => (o1, r.1, pf.number, m)))) := by
    intro o1 r
    unfold pairRows sorted_pull_files
    refine ((List.mergeSort_perm r.2 _).flatMap_right _).trans ?_
    refine List.Perm.flatMap_left _ (fun pf _ => ?_)
    exact (List.mergeSort_perm pf.linked_issue_numbers _).map _
  simp only [hstep]
  refine ((List.mergeSort_perm tree _).flatMap_right _).trans ?_
  refine (List.Perm.flatMap_left _ (fun o _ =>
    (List.mergeSort_perm o.2 _).flatMap_right _)).trans ?_
  exact List.Perm.flatMap_left _ (fun o _ =>
    List.Perm.flatMap_left _ (fun r _ => hpair o.1 r))


theorem rowLe_of_owner {o1 o2 r1 r2 : String} {p1 p2 m1 m2 : Nat}
    (h1 : o1 ≠ o2) (h2 : o1 ≤ o2) :
    rowLe (o1, r1, p1, m1) (o2, r2, p2, m2) = true := by
  simp [rowLe, h1, h2]

theorem rowLe_of_repo {o r1 r2 : String} {p1 p2 m1 m2 : Nat}
    (h1 : r1 ≠ r2) (h2 : r1 ≤ r2) :
    rowLe (o, r1, p1, m1) (o, r2, p2, m2) = true := by
  simp [rowLe, h1, h2]

theorem rowLe_of_pull {o r : String} {p1 p2 m1 m2 : Nat}
    (h1 : p1 ≠ p2) (h2 : p1 ≤ p2) :
    rowLe (o, r, p1, m1) (o, r, p2, m2) = true := by
  simp [rowLe, h1, h2]

theorem rowLe_of_issue {o r : String} {p m1 m2 : Nat} (h : m1 ≤ m2) :
    rowLe (o, r, p, m1) (o, r, p, m2) = true := by
  simp [rowLe, h]

theorem key_trans {α β : Type} [LinearOrder β] (k : α → β) :
    ∀ a b c : α, decide (k a ≤ k b) = true → decide (k b ≤ k c) = true →
      decide (k a ≤ k c) = true := fun _ _ _ h1 h2 =>
  decide_eq_true (le_trans (of_decide_eq_true h1) (of_decide_eq_true h2))

theorem key_total {α β : Type} [LinearOrder β] (k : α → β) :
    ∀ a b : α, (decide (k a ≤ k b) || decide (k b ≤ k a)) = true := by
  intro a b
  rcases le_total (k a) (k b) with h | h <;> simp [h]

theorem pairwise_flatMap_rows {α : Type} (l : List α) (f : α → List Row)
    (R : α → α → Prop) (hl : l.Pairwise R)
    (hin : ∀ x ∈ l, (f x).Pairwise (fun a b => rowLe a b = true))
    (hcross : ∀ x y, R x y → ∀ a ∈ f x, ∀ b ∈ f y, rowLe a b = true) :
    (l.flatMap f).Pairwise (fun a b => rowLe a b = true) := by
  rw [List.pairwise_flatMap]
  exact ⟨hin, hl.imp (fun h => hcross _ _ h)⟩

theorem pairRows_sorted (p : String × RepoDir)
    (hnd : (p.2.2.map PullFile.number).Nodup) :
    (pairRows p).Pairwise (fun a b => rowLe a b = true) := by
  unfold pairRows
  have hsorted : (sorted_pull_files p.2.2).Pairwise
      (fun a b => decide (a.number ≤ b.number) = true) :=
    List.sorted_mergeSort (key_trans PullFile.number)
      (key_total PullFile.number) p.2.2
  have hnd2 : ((sorted_pull_files p.2.2).map PullFile.number).Nodup :=
    (((List.mergeSort_perm p.2.2 _).map PullFile.number).symm).nodup hnd
  have hne : (sorted_pull_files p.2.2).Pairwise
      (fun a b => a.number ≠ b.number) := List.pairwise_map.mp hnd2
  refine pairwise_flatMap_rows _ _ _ (hsorted.and hne) ?_ ?_
  · intro pf _
    rw [List.pairwise_map]
    have hs : (pf.linked_issue_numbers.mergeSort
        (fun a b => decide (a ≤ b))).Pairwise
        (fun a b => decide (a ≤ b) = true) :=
      List.sorted_mergeSort (key_trans id) (key_total id) _
    exact hs.imp (fun h => rowLe_of_issue (of_decide_eq_true h))
  · intro pf1 pf2 hp a ha b hb
    simp only [List.mem_map] at ha hb
    obtain ⟨m1, _, rfl⟩ := ha
    obtain ⟨m2, _, rfl⟩ := hb
    exact rowLe_of_pull hp.2 (of_decide_eq_true hp.1)

/-- Strict lexicographic precedence on `(owner, repo)` pairs, as the sorted
pair list of distinct directory names satisfies it. -/
def pairLt (p q : String × RepoDir) : Prop :=
  (p.1 ≠ q.1 ∧ p.1 ≤ q.1) ∨ (p.1 = q.1 ∧ p.2.1 ≠ q.2.1 ∧ p.2.1 ≤ q.2.1)

theorem sorted_pairs_pairwise (tree : SrcTree)
    (h1 : (tree.map Prod.fst).Nodup)
    (h2 : ∀ o ∈ tree, (o.2.map Prod.fst).Nodup) :
    (sorted_owner_repo_pairs tree).Pairwise pairLt := by
  unfold sorted_owner_repo_pairs
  rw [List.pairwise_flatMap]
  constructor
  · intro o ho
    rw [List.pairwise_map]
    have ho2 : o ∈ tree := List.mem_mergeSort.mp ho
    have hsorted : (o.2.mergeSort (fun a b => decide (a.1 ≤ b.1))).Pairwise
        (fun a b => decide (a.1 ≤ b.1) = true) :=
      List.sorted_mergeSort (key_trans Prod.fst) (key_total Prod.fst) o.2
    have hnd : ((o.2.mergeSort (fun a b => decide (a.1 ≤ b.1))).map
        Prod.fst).Nodup :=
      (((List.mergeSort_perm o.2 _).map Prod.fst).symm).nodup (h2 o ho2)
    have hne := List.pairwise_map.mp hnd
    exact (hsorted.and hne).imp
      (fun h => Or.inr ⟨rfl, h.2, of_decide_eq_true h.1⟩)
  · have hsorted : (tree.mergeSort (fun a b => decide (a.1 ≤ b.1))).Pairwise
        (fun a b => decide (a.1 ≤ b.1) = true) :=
      List.sorted_mergeSort (key_trans Prod.fst) (key_total Prod.fst) tree
    have hnd : ((tree.mergeSort (fun a b => decide (a.1 ≤ b.1))).map
        Prod.fst).Nodup :=
      (((List.mergeSort_perm tree _).map Prod.fst).symm).nodup h1
    have hne := List.pairwise_map.mp hnd
    refine (hsorted.and hne).imp ?_
    intro o1 o2 h x hx y hy
    simp only [List.mem_map] at hx hy
    obtain ⟨r1, _, rfl⟩ := hx
    obtain ⟨r2, _, rfl⟩ := hy
    exact Or.inl ⟨h.2, of_decide_eq_true h.1⟩

theorem pairLt_rows {p q : String × RepoDir} (h : pairLt p q) :
    ∀ a ∈ pairRows p, ∀ b ∈ pairRows q, rowLe a b = true := by
  intro a ha b hb
  unfold pairRows at ha hb
  simp only [List.mem_flatMap, List.mem_map] at ha hb
  obtain ⟨pf1, _, m1, _, rfl⟩ := ha
  obtain ⟨pf2, _, m2, _, rfl⟩ := hb
  rcases h with ⟨hne, hle⟩ | ⟨heq, hne, hle⟩
  · exact rowLe_of_owner hne hle
  · rw [heq]
    exact rowLe_of_repo hne hle

theorem write_dataset_sorted (tree : SrcTree)
    (h1 : (tree.map Prod.fst).Nodup)
    (h2 : ∀ o ∈ tree, (o.2.map Prod.fst).Nodup)
    (h3 : ∀ o ∈ tree, ∀ r ∈ o.2, (r.2.map PullFile.number).Nodup) :
    (write_dataset tree 0).Pairwise (fun a b => rowLe a b = true) := by
  rw [write_dataset_eq]
  refine pairwise_flatMap_rows _ _ pairLt (sorted_pairs_pairwise tree h1 h2)
    ?_ (fun x y h => pairLt_rows h)
  intro p hp
  unfold sorted_owner_repo_pairs at hp
  simp only [List.mem_flatMap, List.mem_map, List.mem_mergeSort] at hp
  obtain ⟨o, ho, r, hr, rfl⟩ := hp
  exact pairRows_sorted (o.1, r) (h3 o ho r hr)

/-- C9: with the default row limit 0 ("ignored if non-positive"),
`write_dataset` emits exactly one CSV row per element of each pull file's
`linked_issue_numbers` — the emitted rows are a permutation of one row per
(pull file, linked-issue occurrence) of the source tree — and, directory
listings carrying distinct names (owners, repositories and pull numbers each
`Nodup`), the rows come out sorted by repository owner, repository name, pull
number, and then issue number (line 115 sorts each pull's issue list before
emitting). -/
theorem writer_one_row_per_pair_sorted (tree : SrcTree)
    (h1 : (tree.map Prod.fst).Nodup)
    (h2 : ∀ o ∈ tree, (o.2.map Prod.fst).Nodup)
    (h3 : ∀ o ∈ tree, ∀ r ∈ o.2, (r.2.map PullFile.number).Nodup) :
    (write_dataset tree 0).Perm
      (tree.flatMap (fun o => o.2.flatMap (fun r =>
        r.2.flatMap (fun pf => pf.linked_issue_numbers.map
          (fun m => (o.1, r.1, pf.number, m)))))) ∧
    (write_dataset tree 0).Pairwise (fun a b => rowLe a b = true) :=
  ⟨write_dataset_perm tree, write_dataset_sorted tree h1 h2 h3⟩

/-- Witness for C9: a concrete two-owner tree with unsorted listings and a
duplicated linked issue; its rows are the per-element enumeration up to
permutation and come out lexicographically sorted. -/
theorem writer_one_row_per_pair_sorted_witness :
    (write_dataset [("b", [("r", [⟨2, [9, 3]⟩, ⟨1, [5, 5]⟩])]),
        ("a", [("s", [⟨4, [7]⟩])])] 0).Perm
      (([("b", [("r", [⟨2, [9, 3]⟩, ⟨1, [5, 5]⟩])]),
        ("a", [("s", [⟨4, [7]⟩])])] : SrcTree).flatMap
        (fun o => o.2.flatMap (fun r =>
          r.2.flatMap (fun pf => pf.linked_issue_numbers.map
            (fun m => (o.1, r.1, pf.number, m)))))) ∧
    (write_dataset [("b", [("r", [⟨2, [9, 3]⟩, ⟨1, [5, 5]⟩])]),
        ("a", [("s", [⟨4, [7]⟩])])] 0).Pairwise
      (fun a b => rowLe a b = true) :=
  writer_one_row_per_pair_sorted
    [("b", [("r", [⟨2, [9, 3]⟩, ⟨1, [5, 5]⟩])]), ("a", [("s", [⟨4, [7]⟩])])]
    (by decide) (by decide) (by decide)

end GhprTools
